import Mathlib

/-!
Shallow embedding of `src/app/lib/parseRubric.ts` (the rubric parser and
auditor) and proofs about the claims of its specification.

Strings are modelled as `List Char`.  JavaScript numbers produced by
`Number(value)` are modelled exactly as rationals (`Option ℚ`, `none`
standing for `NaN`); the finite-precision rounding of IEEE doubles, the
value `Infinity` and non-decimal radix literals are outside the model.
The sort of the entry list is performed in the source with
`String.prototype.localeCompare`, whose ordering ECMA-262 leaves
implementation- and locale-defined; the embedding therefore takes the
comparator as an explicit parameter `cmp` and all theorems below are
proved for every comparator.
-/

namespace Rubric

/-- The set of whitespace characters recognised by JavaScript's `trim`
and by the regex class `\s` (ECMAScript WhiteSpace ∪ LineTerminator). -/
def isJsWs (c : Char) : Bool :=
  c == ' ' || c == '\t' || c == '\n' || c == '\r' ||
  c.toNat == 0x0b || c.toNat == 0x0c || c.toNat == 0xa0 || c.toNat == 0x1680 ||
  (0x2000 ≤ c.toNat && c.toNat ≤ 0x200a) ||
  c.toNat == 0x2028 || c.toNat == 0x2029 || c.toNat == 0x202f ||
  c.toNat == 0x205f || c.toNat == 0x3000 || c.toNat == 0xfeff

/-- ECMAScript LineTerminator characters (not matched by `.` in a regex). -/
def isLineTerm (c : Char) : Bool :=
  c == '\n' || c == '\r' || c.toNat == 0x2028 || c.toNat == 0x2029

/-- Model of `String.prototype.trim`. -/
def jsTrim (s : List Char) : List Char :=
  ((s.dropWhile isJsWs).reverse.dropWhile isJsWs).reverse

/-- ASCII upper-casing of one character; model of what `toUpperCase`
does on the ASCII range (the claims only involve ASCII data). -/
def asciiUpper (c : Char) : Char :=
  if 'a' ≤ c ∧ c ≤ 'z' then Char.ofNat (c.toNat - 32) else c

/-- Model of `String.prototype.toUpperCase`, restricted to ASCII. -/
def jsUpper (s : List Char) : List Char := s.map asciiUpper

/-- `sub` occurs as a contiguous substring of `s`; model of
`String.prototype.includes`. -/
def containsSub (s sub : List Char) : Bool :=
  s.tails.any (fun t => sub.isPrefixOf t)

/-- Case-insensitive substring test; model of an `/…/i` regex test. -/
def containsSubCI (s sub : List Char) : Bool :=
  containsSub (jsUpper s) (jsUpper sub)

/-- Model of `raw.split(/\r?\n/)`: a separator is `\n` optionally
preceded by `\r`; a lone `\r` is not a separator. -/
def splitLinesAux : List Char → List Char → List (List Char)
  | [], acc => [acc.reverse]
  | '\r' :: '\n' :: rest, acc => acc.reverse :: splitLinesAux rest []
  | '\n' :: rest, acc => acc.reverse :: splitLinesAux rest []
  | c :: rest, acc => splitLinesAux rest (c :: acc)

/-- The list of lines of the input. -/
def splitLines (s : List Char) : List (List Char) := splitLinesAux s []

/-- Split a list at its first `':'`: returns the (possibly empty) part
before the first colon and the part after it, or `none` when there is
no colon at all. -/
def splitFirstColon : List Char → Option (List Char × List Char)
  | [] => none
  | c :: rest =>
    if c = ':' then some ([], rest)
    else (splitFirstColon rest).map (fun p => (c :: p.1, p.2))

/-- Model of `trimmed.match(/^([^:]+):\s*(.+)$/)` followed by
`match[1].trim()` and `match[2].trim()`: the key is the non-empty part
before the first colon, the value is what follows after skipping the
run of `\s` characters; the match fails when that remainder is empty
or contains a LineTerminator (which `.` cannot match). -/
def matchLine (t : List Char) : Option (List Char × List Char) :=
  match splitFirstColon t with
  | none => none
  | some (k, rest) =>
    if k.isEmpty then none
    else
      let v := rest.dropWhile isJsWs
      if v.isEmpty || v.any isLineTerm then none
      else some (jsTrim k, jsTrim v)

/-- Model of the quote-stripping step (source lines 53–55): if the
value starts and ends with `"` and has length at least 2, remove the
first and last character. -/
def stripQuotes (v : List Char) : List Char :=
  if v.head? = some '"' ∧ v.getLast? = some '"' ∧ 2 ≤ v.length then
    (v.drop 1).dropLast
  else v

/-- The four field roles of `RubricFieldKey`. -/
inductive FieldKey : Type
  | score
  | verdict
  | justification
  | other
deriving DecidableEq, Repr

/-- Model of `key.split('_')` (JavaScript `split` with a string
separator; splitting the empty string yields `[""]`). -/
def splitUnderscoreAux : List Char → List Char → List (List Char)
  | [], acc => [acc.reverse]
  | c :: rest, acc =>
    if c = '_' then acc.reverse :: splitUnderscoreAux rest []
    else splitUnderscoreAux rest (c :: acc)

/-- `key.split('_')`. -/
def splitUnderscore (k : List Char) : List (List Char) := splitUnderscoreAux k []

/-- Model of `detectField`: the key's last underscore-delimited segment
selects the role when it is one of the three field names. -/
def detectField (k : List Char) : FieldKey :=
  let part := (splitUnderscore k).getLast?.getD []
  if part = "score".data then .score
  else if part = "verdict".data then .verdict
  else if part = "justification".data then .justification
  else .other

/-- Model of `key.split('_').slice(0, -1).join('_') || key`: the key
minus its last underscore-delimited segment, falling back to the whole
key when that join is the empty string. -/
def baseId (k : List Char) : List Char :=
  let j := (List.intersperse "_".data (splitUnderscore k).dropLast).flatten
  if j = [] then k else j

/-- ASCII decimal digit test (regex `\d`). -/
def isDigit (c : Char) : Bool := '0' ≤ c && c ≤ '9'

/-- Numeric value of a list of decimal digits. -/
def natOfDigits (l : List Char) : Nat :=
  l.foldl (fun n c => 10 * n + (c.toNat - 48)) 0

/-- Hexadecimal digit test. -/
def isHexDigit (c : Char) : Bool :=
  isDigit c || ('a' ≤ c && c ≤ 'f') || ('A' ≤ c && c ≤ 'F')

/-- Numeric value of one hexadecimal digit. -/
def hexVal (c : Char) : Nat :=
  if isDigit c then c.toNat - 48
  else if 'a' ≤ c && c ≤ 'f' then c.toNat - 87
  else c.toNat - 55

/-- Parse the exponent part of a decimal literal: `[+-]?\d+`, which
must consume the whole remaining input. -/
def parseExp : List Char → Option Int
  | '+' :: rest => if rest ≠ [] ∧ rest.all isDigit then some (natOfDigits rest) else none
  | '-' :: rest => if rest ≠ [] ∧ rest.all isDigit then some (-(natOfDigits rest : Int)) else none
  | rest => if rest ≠ [] ∧ rest.all isDigit then some (natOfDigits rest) else none

/-- Parse an unsigned decimal literal (`StrUnsignedDecimalLiteral`
minus `Infinity`): digits, an optional fraction, and an optional
exponent. -/
def parseUnsignedDec (s : List Char) : Option ℚ :=
  let intPart := s.takeWhile isDigit
  let rest1 := s.drop intPart.length
  let core : Option (ℚ × List Char) :=
    match rest1 with
    | '.' :: rest2 =>
      let fracPart := rest2.takeWhile isDigit
      let rest3 := rest2.drop fracPart.length
      if intPart = [] ∧ fracPart = [] then none
      else some ((natOfDigits intPart : ℚ) +
        (natOfDigits fracPart : ℚ) / ((10 : ℚ) ^ fracPart.length), rest3)
    | r =>
      if intPart = [] then none else some ((natOfDigits intPart : ℚ), r)
  match core with
  | none => none
  | some (q, rest) =>
    match rest with
    | [] => some q
    | 'e' :: r => (parseExp r).map (fun e => q * (10 : ℚ) ^ e)
    | 'E' :: r => (parseExp r).map (fun e => q * (10 : ℚ) ^ e)
    | _ => none

/-- Model of JavaScript's `Number(string)` conversion, with `none` for
`NaN`.  Covered: the empty/whitespace string (0), signed decimal
literals with fraction and exponent, and hex/octal/binary integer
literals.  Not modelled (outside the exact rational value space): the
literal `Infinity` and literals whose mathematical value an IEEE
double would round to `±Infinity`; doubles are modelled as exact
rationals. -/
def jsNum (s : List Char) : Option ℚ :=
  let t := jsTrim s
  match t with
  | [] => some 0
  | '+' :: rest => parseUnsignedDec rest
  | '-' :: rest => (parseUnsignedDec rest).map (fun q => -q)
  | '0' :: 'x' :: rest =>
    if rest ≠ [] ∧ rest.all isHexDigit then
      some ((rest.foldl (fun n c => 16 * n + hexVal c) 0 : Nat) : ℚ)
    else none
  | '0' :: 'X' :: rest =>
    if rest ≠ [] ∧ rest.all isHexDigit then
      some ((rest.foldl (fun n c => 16 * n + hexVal c) 0 : Nat) : ℚ)
    else none
  | '0' :: 'o' :: rest =>
    if rest ≠ [] ∧ rest.all (fun c => '0' ≤ c && c ≤ '7') then
      some ((rest.foldl (fun n c => 8 * n + (c.toNat - 48)) 0 : Nat) : ℚ)
    else none
  | '0' :: 'O' :: rest =>
    if rest ≠ [] ∧ rest.all (fun c => '0' ≤ c && c ≤ '7') then
      some ((rest.foldl (fun n c => 8 * n + (c.toNat - 48)) 0 : Nat) : ℚ)
    else none
  | '0' :: 'b' :: rest =>
    if rest ≠ [] ∧ rest.all (fun c => c == '0' || c == '1') then
      some ((rest.foldl (fun n c => 2 * n + (c.toNat - 48)) 0 : Nat) : ℚ)
    else none
  | '0' :: 'B' :: rest =>
    if rest ≠ [] ∧ rest.all (fun c => c == '0' || c == '1') then
      some ((rest.foldl (fun n c => 2 * n + (c.toNat - 48)) 0 : Nat) : ℚ)
    else none
  | t => parseUnsignedDec t

/-- Model of `RubricEntry`. -/
structure RubricEntry : Type where
  id : List Char
  score : Option ℚ := none
  verdict : Option (List Char) := none
  justification : Option (List Char) := none
  raw : List (List Char × List Char) := []
deriving DecidableEq, Repr

/-- Lookup in an association list; model of `Map.get` /
object-property read. -/
def lookupA {K V : Type} [DecidableEq K] : List (K × V) → K → Option V
  | [], _ => none
  | (k', v) :: rest, k => if k' = k then some v else lookupA rest k

/-- Insert-or-update in an association list: an existing binding is
updated in place, a new one is appended; model of `Map.set` and of a
JavaScript object-property write (insertion order preserved). -/
def setA {K V : Type} [DecidableEq K] (m : List (K × V)) (k : K) (v : V) : List (K × V) :=
  if m.any (fun p => p.1 = k) then
    m.map (fun p => if p.1 = k then (k, v) else p)
  else m ++ [(k, v)]

/-- The state threaded through the `lines.forEach` loop of
`parseRubric`: the entry map keyed by id, the duplicate-key list, and
the per-exact-key map of most recent original values. -/
structure ParseState : Type where
  map : List (List Char × RubricEntry)
  duplicateKeys : List (List Char)
  rawValues : List (List Char × List Char)
deriving DecidableEq, Repr

/-- The empty initial state. -/
def ParseState.init : ParseState := ⟨[], [], []⟩

/-- Assignment of a typed attribute for a recognised role (source
lines 66–73): a score is only assigned when `Number(value)` is not
`NaN`; `other` assigns nothing. -/
def applyField (r : RubricEntry) (f : FieldKey) (value : List Char) : RubricEntry :=
  match f with
  | .score =>
    match jsNum value with
    | some q => { r with score := some q }
    | none => r
  | .verdict => { r with verdict := some value }
  | .justification => { r with justification := some value }
  | .other => r

/-- Processing of one accepted `(key, originalValue)` pair (source
lines 50–76): quote-strip the value, record the duplicate and the raw
value, then fetch-or-create the entry for the derived id and update
it. -/
def pairStep (st : ParseState) (p : List Char × List Char) : ParseState :=
  let key := p.1
  let originalValue := p.2
  let value := stripQuotes originalValue
  let dups :=
    if st.rawValues.any (fun q => q.1 = key) then st.duplicateKeys ++ [key]
    else st.duplicateKeys
  let rawValues := setA st.rawValues key originalValue
  let field := detectField key
  let bId := baseId key
  let record := (lookupA st.map bId).getD { id := bId }
  let record := applyField record field value
  let record := { record with raw := setA record.raw key value }
  ⟨setA st.map bId record, dups, rawValues⟩

/-- The accepted `(key, originalValue)` pair of one raw line, if any
(source lines 43–51): trim, skip empty and comment lines, and match
the `key: value` pattern. -/
def linePair (line : List Char) : Option (List Char × List Char) :=
  let trimmed := jsTrim line
  if trimmed.isEmpty then none
  else if trimmed.head? = some '#' then none
  else matchLine trimmed

/-- One iteration of the `lines.forEach` loop. -/
def lineStep (st : ParseState) (line : List Char) : ParseState :=
  match linePair line with
  | none => st
  | some p => pairStep st p

/-- The whole line-ingestion loop. -/
def ingest (raw : List Char) : ParseState :=
  (splitLines raw).foldl lineStep .init

/-- Insertion into a list sorted by the boolean comparator `le`. -/
def insertLe {α : Type} (le : α → α → Bool) (a : α) : List α → List α
  | [] => [a]
  | b :: l => if le a b then a :: b :: l else b :: insertLe le a l

/-- Insertion sort by a boolean comparator; model of
`Array.prototype.sort` with a consistent comparator. -/
def sortLe {α : Type} (le : α → α → Bool) : List α → List α
  | [] => []
  | a :: l => insertLe le a (sortLe le l)

/-- Ordinal (code-unit) `≤` on strings, used to instantiate the
comparator parameter in concrete computations. -/
def ordLe : List Char → List Char → Bool
  | [], _ => true
  | _ :: _, [] => false
  | a :: as, b :: bs =>
    if a.toNat < b.toNat then true
    else if b.toNat < a.toNat then false
    else ordLe as bs

/-- The two casing conventions checked in justifications. -/
inductive CaseKind : Type
  | SMILES
  | PYTHON
deriving DecidableEq, Repr

/-- One `casingIssues` record. -/
structure CasingIssue : Type where
  id : List Char
  kind : CaseKind
  snippet : List Char
deriving DecidableEq, Repr

/-- The three components whose absence `missingComponents` reports. -/
inductive Component : Type
  | score
  | verdict
  | justification
deriving DecidableEq, Repr

/-- One `missingComponents` record. -/
structure MissingRecord : Type where
  id : List Char
  missing : List Component
deriving DecidableEq, Repr

/-- One `totalMismatches` record. -/
structure TotalMismatch : Type where
  id : List Char
  reported : ℚ
  expected : ℚ
deriving DecidableEq, Repr

/-- One `skippedIndices` record. -/
structure SkipRecord : Type where
  group : List Char
  missing : List Nat
deriving DecidableEq, Repr

/-- One `verdictConsistency` record. -/
structure VcRecord : Type where
  id : List Char
  message : List Char
deriving DecidableEq, Repr

/-- One `extraQuoteVerdicts` record. -/
structure EqvRecord : Type where
  id : List Char
  raw : List Char
deriving DecidableEq, Repr

/-- Model of `ParseResult`. -/
structure ParseResult : Type where
  entries : List RubricEntry
  totalScore : ℚ
  expectedTotal : ℚ
  wrongVerdicts : Nat
  invalidVerdicts : List RubricEntry
  missingJustifications : List RubricEntry
  totalMismatches : List TotalMismatch
  casingIssues : List CasingIssue
  missingComponents : List MissingRecord
  duplicateKeys : List (List Char)
  skippedIndices : List SkipRecord
  zeroScoreAccepted : List RubricEntry
  verdictConsistency : List VcRecord
  extraQuoteVerdicts : List EqvRecord
deriving DecidableEq, Repr

/-- JavaScript truthiness of an optional string attribute: present and
non-empty. -/
def truthy : Option (List Char) → Bool
  | none => false
  | some v => !v.isEmpty

/-- The two allowed verdicts. -/
def allowedVerdicts : List (List Char) := ["ACCEPTED".data, "WRONG_ANSWER".data]

/-- The missing-component list of one entry (source lines 94–97). -/
def missingOf (e : RubricEntry) : List Component :=
  (if e.score = none then [Component.score] else []) ++
  (if !truthy e.verdict then [Component.verdict] else []) ++
  (if !truthy e.justification then [Component.justification] else [])

/-- The expected sum for a total id (source lines 117–119): the sum of
the scores of the entries whose id starts with `<id>_` and whose score
is a number. -/
def subSum (es : List RubricEntry) (id : List Char) : ℚ :=
  (es.filter (fun e =>
      (id ++ "_".data).isPrefixOf e.id && e.score.isSome)).foldl
    (fun s e => s + e.score.getD 0) 0

/-- Decomposition of an id by the regex `^(.*_)(\d+)$` (source line
153): the greedy `.*` makes the group everything up to the last
underscore, which must be followed by a non-empty run of digits
reaching the end of the id. -/
def idGroupIdx (id : List Char) : Option (List Char × Nat) :=
  let rev := id.reverse
  let dsRev := rev.takeWhile isDigit
  let restRev := rev.drop dsRev.length
  match restRev with
  | '_' :: _ => if dsRev.isEmpty then none else some (restRev.reverse, natOfDigits dsRev.reverse)
  | _ => none

/-- The per-group index lists (source lines 151–162), an
insertion-ordered map from group prefix to the indices in entry
order. -/
def collectGroups (es : List RubricEntry) : List (List Char × List Nat) :=
  es.foldl
    (fun gm e =>
      match idGroupIdx e.id with
      | none => gm
      | some (g, i) => setA gm g ((lookupA gm g).getD [] ++ [i]))
    []

/-- Model of `Array.from(new Set(indices))`: first-occurrence
deduplication. -/
def jsSetList (l : List Nat) : List Nat :=
  l.foldl (fun acc a => if acc.contains a then acc else acc ++ [a]) []

/-- `Array.from(new Set(indices)).sort((a, b) => a - b)`. -/
def dedupSort (l : List Nat) : List Nat :=
  sortLe (fun a b => a ≤ b) (jsSetList l)

/-- The `skippedIndices` record of one group, if any (source lines
165–174). -/
def skipOf (g : List Char) (indices : List Nat) : Option SkipRecord :=
  match dedupSort indices with
  | [] => none
  | mn :: rest =>
    let mx := (mn :: rest).getLastD mn
    let missing := (List.range' mn (mx + 1 - mn)).filter (fun i => !(mn :: rest).contains i)
    if missing.isEmpty then none else some ⟨g, missing⟩

/-- The message pushed when a sub-item is WRONG_ANSWER but a total is
ACCEPTED. -/
def msgWrongSub : List Char :=
  "Contains WRONG_ANSWER sub-items but final verdict is ACCEPTED.".data

/-- The message pushed when all sub-items are ACCEPTED but a total is
WRONG. -/
def msgAllAcc : List Char :=
  "All sub-items ACCEPTED but final verdict is WRONG.".data

set_option maxHeartbeats 1000000 in
/-- The sorted entry list (source line 79), parameterized by the
comparator `cmp` standing for `(a, b) => a.id.localeCompare(b.id)`
(whose ordering is implementation-defined in the source). -/
def mkEntries (cmp : List Char → List Char → Bool) (st : ParseState) : List RubricEntry :=
  sortLe (fun a b => cmp a.id b.id) (st.map.map (fun p => p.2))

/-- `totalScore` (source line 80). -/
def mkTotalScore (entries : List RubricEntry) : ℚ :=
  entries.foldl (fun s e => s + e.score.getD 0) 0

/-- `expectedTotal` (source lines 81–83). -/
def mkExpectedTotal (entries : List RubricEntry) : ℚ :=
  (entries.filter (fun e => e.id.contains '_')).foldl (fun s e => s + e.score.getD 0) 0

/-- `wrongVerdicts` (source line 84). -/
def mkWrongVerdicts (entries : List RubricEntry) : Nat :=
  (entries.filter (fun e => containsSub (jsUpper (e.verdict.getD [])) "WRONG".data)).length

/-- `invalidVerdicts` (source lines 86–88). -/
def mkInvalidVerdicts (entries : List RubricEntry) : List RubricEntry :=
  entries.filter (fun e =>
    truthy e.verdict && !allowedVerdicts.contains (jsUpper (jsTrim (e.verdict.getD []))))

/-- `missingJustifications` (source line 90). -/
def mkMissingJustifications (entries : List RubricEntry) : List RubricEntry :=
  entries.filter (fun e =>
    !(truthy e.justification && !(jsTrim (e.justification.getD [])).isEmpty))

/-- `missingComponents` (source lines 92–99). -/
def mkMissingComponents (entries : List RubricEntry) : List MissingRecord :=
  entries.filterMap (fun e =>
    let m := missingOf e
    if m.isEmpty then none else some (⟨e.id, m⟩ : MissingRecord))

/-- `casingIssues` (source lines 101–111). -/
def mkCasingIssues (entries : List RubricEntry) : List CasingIssue :=
  entries.flatMap (fun e =>
    if !truthy e.justification then []
    else
      let text := e.justification.getD []
      (if containsSubCI text "smiles".data && !containsSub text "SMILES".data then
        [(⟨e.id, .SMILES, text.take 120⟩ : CasingIssue)] else []) ++
      (if containsSubCI text "python".data && !containsSub text "Python".data then
        [(⟨e.id, .PYTHON, text.take 120⟩ : CasingIssue)] else []))

/-- `totalMismatches` (source lines 114–124). -/
def mkTotalMismatches (entries : List RubricEntry) : List TotalMismatch :=
  (entries.filter (fun e => !e.id.contains '_' && e.score.isSome)).filterMap
    (fun total =>
      let expected := subSum entries total.id
      match total.score with
      | some q => if q ≠ expected then some (⟨total.id, q, expected⟩ : TotalMismatch) else none
      | none => none)

/-- `zeroScoreAccepted` (source lines 126–128). -/
def mkZeroScoreAccepted (entries : List RubricEntry) : List RubricEntry :=
  entries.filter (fun e =>
    e.score = some 0 && jsUpper (e.verdict.getD []) = "ACCEPTED".data)

/-- `anyWrong` (source line 133): some entry, of any shape of id, has a
verdict that upper-cases to `WRONG_ANSWER`. -/
def anyWrong (entries : List RubricEntry) : Bool :=
  entries.any (fun e => jsUpper (e.verdict.getD []) = "WRONG_ANSWER".data)

/-- `allAccepted` (source lines 134–138). -/
def allAccepted (entries : List RubricEntry) : Bool :=
  !(entries.filter (fun e => e.id.contains '_')).isEmpty &&
    (entries.filter (fun e => e.id.contains '_')).all
      (fun e => jsUpper (e.verdict.getD []) = "ACCEPTED".data)

/-- `verdictConsistency` (source lines 131–148). -/
def mkVerdictConsistency (entries : List RubricEntry) : List VcRecord :=
  (entries.filter (fun e => !e.id.contains '_' && truthy e.verdict)).flatMap
    (fun e =>
      let verdict := jsUpper (e.verdict.getD [])
      (if anyWrong entries && verdict = "ACCEPTED".data then
        [(⟨e.id, msgWrongSub⟩ : VcRecord)] else []) ++
      (if allAccepted entries && containsSub verdict "WRONG".data then
        [(⟨e.id, msgAllAcc⟩ : VcRecord)] else []))

/-- `skippedIndices` (source lines 150–174). -/
def mkSkippedIndices (entries : List RubricEntry) : List SkipRecord :=
  (collectGroups entries).filterMap (fun p => skipOf p.1 p.2)

/-- `extraQuoteVerdicts` (source lines 176–184). -/
def mkExtraQuoteVerdicts (rawValues : List (List Char × List Char)) : List EqvRecord :=
  rawValues.filterMap (fun p =>
    if !("_verdict".data.isSuffixOf p.1) then none
    else if "\x22\x22".data.isPrefixOf p.2 || "\x22\x22".data.isSuffixOf p.2 then
      some (⟨baseId p.1, p.2⟩ : EqvRecord)
    else none)

/-- The full parser and auditor, `parseRubric`.  It is a total
computable function: every input string yields a `ParseResult`. -/
def parseRubricWith (cmp : List Char → List Char → Bool) (raw : List Char) : ParseResult :=
  let st := ingest raw
  let entries := mkEntries cmp st
  ⟨entries, mkTotalScore entries, mkExpectedTotal entries, mkWrongVerdicts entries,
   mkInvalidVerdicts entries, mkMissingJustifications entries,
   mkTotalMismatches entries, mkCasingIssues entries, mkMissingComponents entries,
   st.duplicateKeys, mkSkippedIndices entries, mkZeroScoreAccepted entries,
   mkVerdictConsistency entries, mkExtraQuoteVerdicts st.rawValues⟩

/-- The accepted `(key, originalValue)` pairs of the whole input, in
line order: the composition of line splitting and per-line
acceptance. -/
def acceptedPairs (raw : List Char) : List (List Char × List Char) :=
  (splitLines raw).filterMap linePair

/-- The index list contributed to group `g` by the entry list, in
entry order: exactly what the `groupMap` loop of the source appends
for `g`. -/
def indicesOf (es : List RubricEntry) (g : List Char) : List Nat :=
  es.filterMap (fun e =>
    match idGroupIdx e.id with
    | some p => if p.1 = g then some p.2 else none
    | none => none)

/-- The original value of the last of a list of `(key, value)`
pairs. -/
def lastVal (occ : List (List Char × List Char)) : Option (List Char) :=
  occ.getLast?.map (fun p => p.2)

/-- The score left behind by a sequence of score-role writes: the
last value that parses as a number wins, non-numeric values leave the
previous score in place (source lines 66–68). -/
def lastScore (occ : List (List Char × List Char)) : Option ℚ :=
  occ.foldl
    (fun acc p =>
      match jsNum (stripQuotes p.2) with
      | some q => some q
      | none => acc)
    none

/-- The parse-state invariant: the entry map is keyed by the entries'
own ids and its keys are distinct. -/
def WFState (st : ParseState) : Prop :=
  (st.map.map (fun p => p.1)).Nodup ∧ ∀ p ∈ st.map, p.2.id = p.1

/-! ## Basic lemmas about the embedding -/

theorem splitUnderscoreAux_no_underscore (k acc : List Char) (h : '_' ∉ k) :
    splitUnderscoreAux k acc = [acc.reverse ++ k] := by
  induction k generalizing acc with
  | nil => simp [splitUnderscoreAux]
  | cons c rest ih =>
    have hc : c ≠ '_' := fun hc => h (hc ▸ List.mem_cons_self c rest)
    have hrest : '_' ∉ rest := fun hm => h (List.mem_cons_of_mem c hm)
    rw [splitUnderscoreAux, if_neg hc, ih (c :: acc) hrest]
    simp

theorem splitUnderscore_no_underscore (k : List Char) (h : '_' ∉ k) :
    splitUnderscore k = [k] := by
  simpa using splitUnderscoreAux_no_underscore k [] h

theorem baseId_no_underscore (k : List Char) (h : '_' ∉ k) : baseId k = k := by
  rw [baseId, splitUnderscore_no_underscore k h]
  simp

/-! ## Association-list lemmas -/

theorem lookupA_nil {K V : Type} [DecidableEq K] (k : K) :
    lookupA ([] : List (K × V)) k = none := rfl

theorem lookupA_cons {K V : Type} [DecidableEq K] (p : K × V) (m : List (K × V)) (k : K) :
    lookupA (p :: m) k = if p.1 = k then some p.2 else lookupA m k := by
  obtain ⟨k', v⟩ := p
  rfl

theorem lookupA_append {K V : Type} [DecidableEq K] (m1 m2 : List (K × V)) (k : K) :
    lookupA (m1 ++ m2) k =
      match lookupA m1 k with
      | some v => some v
      | none => lookupA m2 k := by
  induction m1 with
  | nil => simp [lookupA_nil]
  | cons p rest ih =>
    by_cases h : p.1 = k
    · simp [lookupA_cons, h]
    · simp [lookupA_cons, h, ih]

theorem any_key_eq_lookupA {K V : Type} [DecidableEq K] (m : List (K × V)) (k : K) :
    (m.any (fun p => p.1 = k)) = (lookupA m k).isSome := by
  induction m with
  | nil => simp [lookupA_nil]
  | cons p rest ih =>
    by_cases h : p.1 = k
    · simp [lookupA_cons, h]
    · simp [lookupA_cons, h, ih]

theorem lookupA_setA_self {K V : Type} [DecidableEq K] (m : List (K × V)) (k : K) (v : V) :
    lookupA (setA m k v) k = some v := by
  rw [setA]
  by_cases hany : m.any (fun p => p.1 = k) = true
  · rw [if_pos hany]
    induction m with
    | nil => simp at hany
    | cons p rest ih =>
      by_cases h : p.1 = k
      · simp [lookupA_cons, h]
      · simp only [List.any_cons, h, decide_False, Bool.false_or] at hany
        simp [lookupA_cons, h, ih hany]
  · rw [if_neg hany, lookupA_append]
    have hnone : lookupA m k = none := by
      rw [any_key_eq_lookupA] at hany
      cases hl : lookupA m k with
      | none => rfl
      | some w => rw [hl] at hany; simp at hany
    rw [hnone]
    simp [lookupA_cons]

theorem lookupA_map_replace {K V : Type} [DecidableEq K] (m : List (K × V)) (k k' : K) (v : V)
    (h : k' ≠ k) :
    lookupA (m.map (fun p => if p.1 = k then (k, v) else p)) k' = lookupA m k' := by
  induction m with
  | nil => rfl
  | cons p rest ih =>
    by_cases hpk : p.1 = k
    · have hkk' : ¬(k = k') := fun hkk => h hkk.symm
      have hpk' : ¬(p.1 = k') := fun hc => h (hc ▸ hpk : k' = k)
      simp only [List.map_cons, hpk, if_pos, lookupA_cons, hkk', if_neg, hpk', if_true]
      simpa [hpk] using ih
    · simp only [List.map_cons, hpk, if_neg, lookupA_cons]
      by_cases hpk' : p.1 = k'
      · simp [hpk']
      · simpa [hpk'] using ih

theorem lookupA_setA_ne {K V : Type} [DecidableEq K] (m : List (K × V)) (k k' : K) (v : V)
    (h : k' ≠ k) : lookupA (setA m k v) k' = lookupA m k' := by
  rw [setA]
  by_cases hany : m.any (fun p => p.1 = k) = true
  · rw [if_pos hany, lookupA_map_replace m k k' v h]
  · rw [if_neg hany, lookupA_append]
    cases hl : lookupA m k' with
    | some w => rfl
    | none =>
      have : ¬(k = k') := fun hh => h hh.symm
      simp [lookupA_cons, this, lookupA_nil]


theorem keys_setA {K V : Type} [DecidableEq K] (m : List (K × V)) (k : K) (v : V) :
    (setA m k v).map (fun p => p.1) =
      if m.any (fun p => p.1 = k) then m.map (fun p => p.1)
      else m.map (fun p => p.1) ++ [k] := by
  rw [setA]
  by_cases hany : m.any (fun p => p.1 = k) = true
  · rw [if_pos hany, if_pos hany, List.map_map]
    apply List.map_congr_left
    intro p _
    by_cases hp : p.1 = k
    · simp [hp]
    · simp [hp]
  · rw [if_neg hany, if_neg hany]
    simp

theorem nodup_keys_setA {K V : Type} [DecidableEq K] (m : List (K × V)) (k : K) (v : V)
    (h : (m.map (fun p => p.1)).Nodup) : ((setA m k v).map (fun p => p.1)).Nodup := by
  rw [keys_setA]
  by_cases hany : m.any (fun p => p.1 = k) = true
  · rwa [if_pos hany]
  · rw [if_neg hany]
    have hk : k ∉ m.map (fun p => p.1) := by
      intro hmem
      apply hany
      rw [List.any_eq_true]
      obtain ⟨p, hp, hpk⟩ := List.mem_map.mp hmem
      exact ⟨p, hp, by simp [hpk]⟩
    simp [List.nodup_append, hk, h]

theorem mem_of_lookupA {K V : Type} [DecidableEq K] (m : List (K × V)) (k : K) (v : V)
    (h : lookupA m k = some v) : (k, v) ∈ m := by
  induction m with
  | nil => simp [lookupA_nil] at h
  | cons p rest ih =>
    obtain ⟨k1, v1⟩ := p
    rw [lookupA_cons] at h
    by_cases hp : k1 = k
    · rw [if_pos hp] at h
      cases h
      subst hp
      exact List.mem_cons_self _ _
    · rw [if_neg hp] at h
      exact List.mem_cons_of_mem _ (ih h)

theorem lookupA_of_mem_nodup {K V : Type} [DecidableEq K] (m : List (K × V)) (k : K) (v : V)
    (hnd : (m.map (fun p => p.1)).Nodup) (h : (k, v) ∈ m) : lookupA m k = some v := by
  induction m with
  | nil => simp at h
  | cons p rest ih =>
    rw [List.map_cons, List.nodup_cons] at hnd
    rcases List.mem_cons.mp h with heq | hmem
    · cases heq
      simp [lookupA_cons]
    · rw [lookupA_cons]
      by_cases hp : p.1 = k
      · exfalso
        apply hnd.1
        rw [hp]
        exact List.mem_map.mpr ⟨(k, v), hmem, rfl⟩
      · rw [if_neg hp]
        exact ih hnd.2 hmem

/-! ## Sorting lemmas -/

theorem insertLe_perm {α : Type} (le : α → α → Bool) (a : α) (l : List α) :
    (insertLe le a l).Perm (a :: l) := by
  induction l with
  | nil => simp [insertLe]
  | cons b bs ih =>
    rw [insertLe]
    by_cases h : le a b = true
    · rw [if_pos h]
    · rw [if_neg h]
      exact ((ih.cons b).trans (List.Perm.swap a b bs))

theorem sortLe_perm {α : Type} (le : α → α → Bool) (l : List α) :
    (sortLe le l).Perm l := by
  induction l with
  | nil => simp [sortLe]
  | cons a as ih =>
    rw [sortLe]
    exact (insertLe_perm le a (sortLe le as)).trans (ih.cons a)

theorem mem_sortLe {α : Type} (le : α → α → Bool) (l : List α) (x : α) :
    x ∈ sortLe le l ↔ x ∈ l :=
  (sortLe_perm le l).mem_iff

theorem count_sortLe {α : Type} [DecidableEq α] (le : α → α → Bool) (l : List α) (x : α) :
    (sortLe le l).count x = l.count x :=
  (sortLe_perm le l).count_eq x

/-! ## The parse-state invariant: the entry map is keyed by the
entries own ids, and its keys are distinct -/

theorem wf_init : WFState ParseState.init := by
  constructor
  · simp [ParseState.init]
  · intro p hp
    simp [ParseState.init] at hp

theorem applyField_id (r : RubricEntry) (f : FieldKey) (v : List Char) :
    (applyField r f v).id = r.id := by
  cases f with
  | score =>
    rw [applyField]
    cases jsNum v <;> rfl
  | verdict => rfl
  | justification => rfl
  | other => rfl

theorem wf_pairStep (st : ParseState) (p : List Char × List Char) (h : WFState st) :
    WFState (pairStep st p) := by
  obtain ⟨hnd, hid⟩ := h
  constructor
  · exact nodup_keys_setA _ _ _ hnd
  · intro q hq
    rw [pairStep] at hq
    simp only at hq
    rw [setA] at hq
    by_cases hany : st.map.any (fun r => r.1 = baseId p.1) = true
    · rw [if_pos hany] at hq
      obtain ⟨r, hr, hrq⟩ := List.mem_map.mp hq
      by_cases hrk : r.1 = baseId p.1
      · rw [if_pos hrk] at hrq
        cases hrq.symm
        simp only
        rw [applyField_id]
        cases hl : lookupA st.map (baseId p.1) with
        | none => simp [hl]
        | some w =>
          simp only [hl, Option.getD_some]
          exact hid _ (mem_of_lookupA _ _ _ hl)
      · rw [if_neg hrk] at hrq
        exact hrq ▸ hid r hr
    · rw [if_neg hany] at hq
      rcases List.mem_append.mp hq with hmem | hmem
      · exact hid q hmem
      · simp only [List.mem_singleton] at hmem
        cases hmem
        simp only
        rw [applyField_id]
        cases hl : lookupA st.map (baseId p.1) with
        | none => simp [hl]
        | some w =>
          simp only [hl, Option.getD_some]
          exact hid _ (mem_of_lookupA _ _ _ hl)

theorem wf_lineStep (st : ParseState) (line : List Char) (h : WFState st) :
    WFState (lineStep st line) := by
  rw [lineStep]
  cases linePair line with
  | none => exact h
  | some p => exact wf_pairStep st p h

theorem wf_foldl (lines : List (List Char)) :
    ∀ st : ParseState, WFState st → WFState (lines.foldl lineStep st) := by
  induction lines with
  | nil => intro st h; exact h
  | cons l ls ih =>
    intro st h
    exact ih (lineStep st l) (wf_lineStep st l h)

theorem wf_ingest (raw : List Char) : WFState (ingest raw) :=
  wf_foldl (splitLines raw) ParseState.init wf_init


/-! ## Projections of the result and uniqueness of entry ids -/

theorem parse_entries (cmp : List Char → List Char → Bool) (raw : List Char) :
    (parseRubricWith cmp raw).entries = mkEntries cmp (ingest raw) := rfl

theorem parse_duplicateKeys (cmp : List Char → List Char → Bool) (raw : List Char) :
    (parseRubricWith cmp raw).duplicateKeys = (ingest raw).duplicateKeys := rfl

theorem parse_totalMismatches (cmp : List Char → List Char → Bool) (raw : List Char) :
    (parseRubricWith cmp raw).totalMismatches =
      mkTotalMismatches (mkEntries cmp (ingest raw)) := rfl

theorem parse_verdictConsistency (cmp : List Char → List Char → Bool) (raw : List Char) :
    (parseRubricWith cmp raw).verdictConsistency =
      mkVerdictConsistency (mkEntries cmp (ingest raw)) := rfl

theorem parse_skippedIndices (cmp : List Char → List Char → Bool) (raw : List Char) :
    (parseRubricWith cmp raw).skippedIndices =
      mkSkippedIndices (mkEntries cmp (ingest raw)) := rfl

theorem parse_invalidVerdicts (cmp : List Char → List Char → Bool) (raw : List Char) :
    (parseRubricWith cmp raw).invalidVerdicts =
      mkInvalidVerdicts (mkEntries cmp (ingest raw)) := rfl

theorem parse_missingComponents (cmp : List Char → List Char → Bool) (raw : List Char) :
    (parseRubricWith cmp raw).missingComponents =
      mkMissingComponents (mkEntries cmp (ingest raw)) := rfl

theorem mkEntries_ids_nodup (cmp : List Char → List Char → Bool) (st : ParseState)
    (h : WFState st) : ((mkEntries cmp st).map (fun e => e.id)).Nodup := by
  have hperm : (mkEntries cmp st).Perm (st.map.map (fun p => p.2)) :=
    sortLe_perm _ _
  have hperm2 := hperm.map (fun e => e.id)
  rw [hperm2.nodup_iff, List.map_map]
  have : (st.map.map ((fun e : RubricEntry => e.id) ∘ fun p => p.2)) =
      st.map.map (fun p => p.1) := by
    apply List.map_congr_left
    intro p hp
    exact h.2 p hp
  rw [this]
  exact h.1

theorem entries_ids_nodup (cmp : List Char → List Char → Bool) (raw : List Char) :
    ((parseRubricWith cmp raw).entries.map (fun e => e.id)).Nodup := by
  rw [parse_entries]
  exact mkEntries_ids_nodup cmp (ingest raw) (wf_ingest raw)

theorem entry_eq_of_id_eq {cmp : List Char → List Char → Bool} {raw : List Char}
    {e e' : RubricEntry} (he : e ∈ (parseRubricWith cmp raw).entries)
    (he' : e' ∈ (parseRubricWith cmp raw).entries) (h : e.id = e'.id) : e = e' :=
  List.inj_on_of_nodup_map (entries_ids_nodup cmp raw) he he' h


/-! ## Claim C5 -/

/-- C5: `parseRubric` is total — the embedding `parseRubricWith` is a
total computable function, so every input yields a `ParseResult`
without failure — and on the empty input string it returns an empty
entry list, every diagnostic collection empty, and all counts and
totals 0, for every comparator. -/
theorem parse_empty_input (cmp : List Char → List Char → Bool) :
    parseRubricWith cmp [] =
      ⟨[], 0, 0, 0, [], [], [], [], [], [], [], [], [], []⟩ := rfl

/-- Witness for C5 at the ordinal comparator. -/
theorem parse_empty_input_witness :
    parseRubricWith ordLe [] =
      ⟨[], 0, 0, 0, [], [], [], [], [], [], [], [], [], []⟩ :=
  parse_empty_input ordLe

/-! ## Claim C8 -/

theorem splitFirstColon_append (k v : List Char) (hk : ':' ∉ k) :
    splitFirstColon (k ++ ':' :: v) = some (k, v) := by
  induction k with
  | nil => simp [splitFirstColon]
  | cons c rest ih =>
    have hc : ¬(c = ':') := fun h => hk (h ▸ List.mem_cons_self c rest)
    have hrest : ':' ∉ rest := fun h => hk (List.mem_cons_of_mem c h)
    simp only [List.cons_append, splitFirstColon, hc, if_false, List.append_eq]
    rw [ih hrest]
    rfl

theorem matchLine_ws_value (k v : List Char) (hk : ':' ∉ k)
    (hv : ∀ c ∈ v, isJsWs c = true) : matchLine (k ++ ':' :: v) = none := by
  rw [matchLine, splitFirstColon_append k v hk]
  by_cases hke : k.isEmpty = true
  · simp [hke]
  · have hdw : v.dropWhile isJsWs = [] := List.dropWhile_eq_nil_iff.mpr hv
    simp [hke, hdw]

/-- C8: a non-comment line whose text after the first colon is empty
or consists only of whitespace is silently dropped — processing it
leaves the whole parse state unchanged, so it creates no entry, stores
nothing in any raw map or in the per-key original-value map, and is
never recorded as a duplicate key. -/
theorem ws_value_line_dropped (st : ParseState) (line k v : List Char)
    (hsplit : jsTrim line = k ++ ':' :: v) (hk : ':' ∉ k)
    (hv : ∀ c ∈ v, isJsWs c = true) :
    lineStep st line = st := by
  have hlp : linePair line = none := by
    unfold linePair
    rw [hsplit]
    have hne : (k ++ ':' :: v).isEmpty = false := by
      cases k <;> simp
    simp only [hne, Bool.false_eq_true, if_false]
    by_cases hh : (k ++ ':' :: v).head? = some '#'
    · rw [if_pos hh]
    · rw [if_neg hh]
      exact matchLine_ws_value k v hk hv
  rw [lineStep, hlp]

/-- Witness for C8: the line `Q1_score:` leaves the empty state
unchanged. -/
theorem ws_value_line_dropped_witness :
    lineStep ParseState.init "Q1_score:".data = ParseState.init :=
  ws_value_line_dropped ParseState.init "Q1_score:".data "Q1_score".data []
    (by decide) (by decide) (by intro c hc; cases hc)

/-! ## Claim C9 -/

/-- C9: a key with no underscore keeps the whole key as the entry id
(`baseId` falls back to the key), and for a bare role-name key the
typed attribute is still assigned: parsing the single line `score: 5`
yields the entry with id `score` and score 5. -/
theorem bare_role_key_entry :
    (∀ k : List Char, '_' ∉ k → baseId k = k) ∧
    (parseRubricWith ordLe "score: 5".data).entries =
      [{ id := "score".data, score := some 5, verdict := none, justification := none,
         raw := [("score".data, "5".data)] }] := by
  constructor
  · exact baseId_no_underscore
  · decide

/-- Witness for C9: the fallback applied at the bare key `verdict`. -/
theorem bare_role_key_entry_witness : baseId "verdict".data = "verdict".data :=
  bare_role_key_entry.1 "verdict".data (by decide)


/-! ## Claim C2 -/

/-- C2 counterexample: the claim says a value wrapped in a doubled
double-quote is left unchanged by the quote-stripping step, but the
code strips one outer pair whenever the value starts and ends with a
quote and has length at least 2: the line `A_verdict: ""ACCEPTED""`
stores `"ACCEPTED"` (one layer removed), not `""ACCEPTED""`.  The
extra-quote diagnostic still fires, because it reads the pre-strip
value. -/
theorem doubled_quote_stripped_cex :
    (parseRubricWith ordLe "A_verdict: \"\"ACCEPTED\"\"".data).entries =
      [{ id := "A".data, score := none, verdict := some "\"ACCEPTED\"".data,
         justification := none,
         raw := [("A_verdict".data, "\"ACCEPTED\"".data)] }] ∧
    "\"ACCEPTED\"".data ≠ "\"\"ACCEPTED\"\"".data ∧
    (parseRubricWith ordLe "A_verdict: \"\"ACCEPTED\"\"".data).extraQuoteVerdicts =
      [⟨"A".data, "\"\"ACCEPTED\"\"".data⟩] := by
  refine ⟨by decide, by decide, by decide⟩

/-- C2 amended: the quote-stripping step removes exactly one outer
pair of double quotes whenever the value starts and ends with `"` and
has length at least 2 — including values wrapped in doubled quotes,
which therefore keep their inner pair — and a value wrapped in a
single full-length pair has exactly that pair stripped. -/
theorem quote_strip_one_layer (s : List Char) :
    stripQuotes ('"' :: '"' :: (s ++ ['"', '"'])) = '"' :: (s ++ ['"']) ∧
    stripQuotes ('"' :: (s ++ ['"'])) = s := by
  constructor
  · rw [stripQuotes, if_pos]
    · show ('"' :: (s ++ ['"', '"'])).dropLast = '"' :: (s ++ ['"'])
      have : '"' :: (s ++ ['"', '"']) = ('"' :: (s ++ ['"'])) ++ ['"'] := by simp
      rw [this, List.dropLast_concat]
    · refine ⟨rfl, ?_, ?_⟩
      · have : '"' :: '"' :: (s ++ ['"', '"']) = ('"' :: '"' :: s ++ ['"']) ++ ['"'] := by simp
        rw [this, List.getLast?_concat]
      · simp
  · rw [stripQuotes, if_pos]
    · show (s ++ ['"']).dropLast = s
      simp
    · refine ⟨rfl, ?_, ?_⟩
      · have : '"' :: (s ++ ['"']) = ('"' :: s) ++ ['"'] := by simp
        rw [this, List.getLast?_concat]
      · simp

/-- Witness for C2's amended claim at the value `""ACCEPTED""`. -/
theorem quote_strip_one_layer_witness :
    stripQuotes ('"' :: '"' :: ("ACCEPTED".data ++ ['"', '"'])) =
      '"' :: ("ACCEPTED".data ++ ['"']) :=
  (quote_strip_one_layer "ACCEPTED".data).1

/-! ## Claim C10 -/

/-- C10: an entry whose verdict is present but empty (after quote
stripping) is treated as having no verdict by the diagnostics — it is
not in `invalidVerdicts` and its missing-component set lists the
verdict — while a score of exactly 0 is never reported missing and an
unset score always is. -/
theorem empty_verdict_diag (cmp : List Char → List Char → Bool) (raw : List Char)
    (e : RubricEntry) (he : e ∈ (parseRubricWith cmp raw).entries) :
    (e.verdict = some [] →
      e ∉ (parseRubricWith cmp raw).invalidVerdicts ∧
      (⟨e.id, missingOf e⟩ : MissingRecord) ∈ (parseRubricWith cmp raw).missingComponents ∧
      Component.verdict ∈ missingOf e) ∧
    (e.score = some 0 → Component.score ∉ missingOf e) ∧
    (e.score = none → Component.score ∈ missingOf e) := by
  rw [parse_entries] at he
  refine ⟨fun hv => ⟨?_, ?_, ?_⟩, fun hs => ?_, fun hs => ?_⟩
  · rw [parse_invalidVerdicts]
    intro hmem
    rw [mkInvalidVerdicts, List.mem_filter] at hmem
    rw [hv] at hmem
    simp [truthy] at hmem
  · rw [parse_missingComponents, mkMissingComponents, List.mem_filterMap]
    refine ⟨e, he, ?_⟩
    have hne : Component.verdict ∈ missingOf e := by
      simp [missingOf, truthy, hv]
    have : (missingOf e).isEmpty = false := by
      cases hmo : missingOf e with
      | nil => rw [hmo] at hne; cases hne
      | cons a l => rfl
    simp only [this, Bool.false_eq_true, if_false]
  · simp [missingOf, truthy, hv]
  · simp [missingOf, hs]
  · simp [missingOf, hs]

/-- Witness for C10 on the input `X_verdict: ""` (one entry whose
verdict is the empty string after stripping and whose score is
unset). -/
theorem empty_verdict_diag_witness :
    (({ id := "X".data, score := none, verdict := some [], justification := none,
        raw := [("X_verdict".data, [])] } : RubricEntry) ∉
      (parseRubricWith ordLe "X_verdict: \"\"".data).invalidVerdicts) ∧
    Component.score ∈ missingOf
      { id := "X".data, score := none, verdict := some [], justification := none,
        raw := [("X_verdict".data, [])] } :=
  ⟨((empty_verdict_diag ordLe "X_verdict: \"\"".data _ (by decide)).1 rfl).1,
   (empty_verdict_diag ordLe "X_verdict: \"\"".data
      { id := "X".data, score := none, verdict := some [], justification := none,
        raw := [("X_verdict".data, [])] } (by decide)).2.2 rfl⟩


/-! ## Claim C1 -/

/-- C1 counterexample: the claim allows the flag only when some
sub-item entry (id containing an underscore) has verdict exactly
`WRONG_ANSWER`.  In the input `A_verdict: ACCEPTED` /
`B_verdict: wrong_answer` no entry id contains an underscore and no
entry verdict is exactly `WRONG_ANSWER`, yet the total `A` is flagged:
the code's `anyWrong` scans all entries, totals included, and
upper-cases the verdict before comparing. -/
theorem vc_flag_without_subitem_cex :
    (parseRubricWith ordLe
        "A_verdict: ACCEPTED\nB_verdict: wrong_answer".data).verdictConsistency =
      [⟨"A".data, msgWrongSub⟩] ∧
    (∀ e ∈ (parseRubricWith ordLe
        "A_verdict: ACCEPTED\nB_verdict: wrong_answer".data).entries,
      e.id.contains '_' = false) ∧
    (∀ e ∈ (parseRubricWith ordLe
        "A_verdict: ACCEPTED\nB_verdict: wrong_answer".data).entries,
      e.verdict ≠ some "WRONG_ANSWER".data) := by
  refine ⟨by decide, by decide, by decide⟩

/-- C1 amended: a total entry (id without underscore) that has a
non-empty verdict is flagged with the WRONG_ANSWER-sub-items message
iff its verdict upper-cases to `ACCEPTED` and some entry of the whole
document — sub-item or total alike — has a verdict that upper-cases to
`WRONG_ANSWER`. -/
theorem vc_accepted_flag_iff (cmp : List Char → List Char → Bool) (raw : List Char)
    (t : RubricEntry) (v : List Char)
    (ht : t ∈ (parseRubricWith cmp raw).entries)
    (hid : t.id.contains '_' = false)
    (hv : t.verdict = some v) (hne : v ≠ []) :
    (⟨t.id, msgWrongSub⟩ : VcRecord) ∈ (parseRubricWith cmp raw).verdictConsistency ↔
      (jsUpper v = "ACCEPTED".data ∧
       ∃ e ∈ (parseRubricWith cmp raw).entries,
         jsUpper (e.verdict.getD []) = "WRONG_ANSWER".data) := by
  rw [parse_verdictConsistency]
  rw [parse_entries] at ht ⊢
  constructor
  · intro hmem
    rw [mkVerdictConsistency, List.mem_flatMap] at hmem
    obtain ⟨e, hef, hrec⟩ := hmem
    rw [List.mem_filter] at hef
    rcases List.mem_append.mp hrec with hrec1 | hrec2
    · by_cases hcond : (anyWrong (mkEntries cmp (ingest raw)) &&
          jsUpper (e.verdict.getD []) = "ACCEPTED".data) = true
      · rw [if_pos hcond] at hrec1
        simp only [List.mem_singleton] at hrec1
        have hids : e.id = t.id := (congrArg VcRecord.id hrec1).symm
        have het : e = t := entry_eq_of_id_eq (by rw [parse_entries]; exact hef.1)
          (by rw [parse_entries]; exact ht) hids
        subst het
        rw [Bool.and_eq_true, decide_eq_true_eq] at hcond
        rw [hv] at hcond
        refine ⟨hcond.2, ?_⟩
        rw [anyWrong, List.any_eq_true] at hcond
        obtain ⟨w, hw, hwv⟩ := hcond.1
        exact ⟨w, hw, of_decide_eq_true hwv⟩
      · rw [if_neg hcond] at hrec1
        cases hrec1
    · by_cases hcond : (allAccepted (mkEntries cmp (ingest raw)) &&
          containsSub (jsUpper (e.verdict.getD [])) "WRONG".data) = true
      · rw [if_pos hcond] at hrec2
        simp only [List.mem_singleton] at hrec2
        have : msgWrongSub = msgAllAcc := congrArg VcRecord.message hrec2
        exact absurd this (by decide)
      · rw [if_neg hcond] at hrec2
        cases hrec2
  · rintro ⟨hacc, w, hw, hwv⟩
    rw [mkVerdictConsistency, List.mem_flatMap]
    refine ⟨t, ?_, ?_⟩
    · rw [List.mem_filter]
      refine ⟨ht, ?_⟩
      rw [hid, hv]
      cases v with
      | nil => exact absurd rfl hne
      | cons c cs => rfl
    · apply List.mem_append_left
      have hcond : (anyWrong (mkEntries cmp (ingest raw)) &&
          jsUpper (t.verdict.getD []) = "ACCEPTED".data) = true := by
        rw [Bool.and_eq_true, decide_eq_true_eq, hv]
        refine ⟨?_, hacc⟩
        rw [anyWrong, List.any_eq_true]
        exact ⟨w, hw, decide_eq_true hwv⟩
      rw [if_pos hcond]
      exact List.mem_singleton.mpr rfl

/-- Witness for C1's amended claim: in
`A_verdict: ACCEPTED` / `B_verdict: wrong_answer` the total `A` is
flagged, and the witnessing entry is the total `B`. -/
theorem vc_accepted_flag_iff_witness :
    (⟨"A".data, msgWrongSub⟩ : VcRecord) ∈
      (parseRubricWith ordLe
        "A_verdict: ACCEPTED\nB_verdict: wrong_answer".data).verdictConsistency :=
  (vc_accepted_flag_iff ordLe "A_verdict: ACCEPTED\nB_verdict: wrong_answer".data
      { id := "A".data, score := none, verdict := some "ACCEPTED".data,
        justification := none, raw := [("A_verdict".data, "ACCEPTED".data)] }
      "ACCEPTED".data (by decide) (by decide) rfl (by decide)).mpr
    ⟨by decide,
     { id := "B".data, score := none, verdict := some "wrong_answer".data,
       justification := none, raw := [("B_verdict".data, "wrong_answer".data)] },
     by decide, by decide⟩


/-! ## Claim C4 -/

theorem filter_id_eq_singleton (l : List RubricEntry) (t : RubricEntry)
    (hnd : (l.map (fun e => e.id)).Nodup) (ht : t ∈ l) :
    l.filter (fun e => e.id = t.id) = [t] := by
  induction l with
  | nil => cases ht
  | cons a rest ih =>
    rw [List.map_cons, List.nodup_cons] at hnd
    rcases List.mem_cons.mp ht with heq | hmem
    · subst heq
      rw [List.filter_cons_of_pos (by simp)]
      congr 1
      rw [List.filter_eq_nil_iff]
      intro e he
      simp only [decide_eq_true_eq]
      intro hec
      exact hnd.1 (hec ▸ List.mem_map.mpr ⟨e, he, rfl⟩)
    · have hne : ¬(a.id = t.id) := by
        intro hc
        exact hnd.1 (hc ▸ List.mem_map.mpr ⟨t, hmem, rfl⟩)
      rw [List.filter_cons_of_neg (by simpa using hne)]
      exact ih hnd.2 hmem

theorem filterMap_filter_key {α β : Type} (f : α → Option β) (pa : α → Bool) (pb : β → Bool)
    (h : ∀ a b, f a = some b → pb b = pa a) (l : List α) :
    (l.filterMap f).filter pb = (l.filter pa).filterMap f := by
  induction l with
  | nil => rfl
  | cons a rest ih =>
    cases hfa : f a with
    | none =>
      rw [List.filterMap_cons_none hfa]
      by_cases hpa : pa a = true
      · rw [List.filter_cons_of_pos hpa, List.filterMap_cons_none hfa]
        exact ih
      · rw [List.filter_cons_of_neg (by simpa using hpa)]
        exact ih
    | some b =>
      rw [List.filterMap_cons_some hfa]
      have hpb := h a b hfa
      by_cases hpa : pa a = true
      · rw [List.filter_cons_of_pos (by rw [hpb]; exact hpa),
          List.filter_cons_of_pos hpa, List.filterMap_cons_some hfa, ih]
      · rw [List.filter_cons_of_neg (by rw [hpb]; simpa using hpa),
          List.filter_cons_of_neg (by simpa using hpa)]
        exact ih

theorem foldl_score_filter_isSome (l : List RubricEntry) :
    ∀ a : ℚ, (l.filter (fun e => e.score.isSome)).foldl (fun s e => s + e.score.getD 0) a =
      l.foldl (fun s e => s + e.score.getD 0) a := by
  induction l with
  | nil => intro a; rfl
  | cons e rest ih =>
    intro a
    cases hs : e.score with
    | some q =>
      rw [List.filter_cons_of_pos (by simp [hs])]
      simp only [List.foldl_cons]
      exact ih _
    | none =>
      rw [List.filter_cons_of_neg (by simp [hs])]
      simp only [List.foldl_cons, hs, Option.getD_none, add_zero]
      exact ih a

/-- The `subSum` of the source (which filters to entries with a
numeric score) equals the sum over all prefixed entries with a missing
score contributing 0 — the formulation used by the claim. -/
theorem subSum_eq_all_prefixed (es : List RubricEntry) (id : List Char) :
    subSum es id =
      (es.filter (fun e => (id ++ "_".data).isPrefixOf e.id)).foldl
        (fun s e => s + e.score.getD 0) 0 := by
  rw [subSum]
  have : es.filter (fun e => (id ++ "_".data).isPrefixOf e.id && e.score.isSome) =
      (es.filter (fun e => (id ++ "_".data).isPrefixOf e.id)).filter
        (fun e => e.score.isSome) := by
    rw [List.filter_filter]
    apply List.filter_congr
    intro e _
    rw [Bool.and_comm]
  rw [this, foldl_score_filter_isSome]

/-- C4: a total entry (id without underscore) with a numeric score
appears in `totalMismatches` iff its reported score differs from the
sum of the scores of the entries whose id starts with `<id>_`
(entries without a score contributing 0), and then exactly once,
carrying the reported score and that sum. -/
theorem total_mismatch_iff (cmp : List Char → List Char → Bool) (raw : List Char)
    (t : RubricEntry) (q : ℚ)
    (ht : t ∈ (parseRubricWith cmp raw).entries)
    (hid : t.id.contains '_' = false)
    (hq : t.score = some q) :
    ((parseRubricWith cmp raw).totalMismatches.filter (fun r => r.id = t.id) =
      if q = subSum (parseRubricWith cmp raw).entries t.id then []
      else [⟨t.id, q, subSum (parseRubricWith cmp raw).entries t.id⟩]) ∧
    subSum (parseRubricWith cmp raw).entries t.id =
      ((parseRubricWith cmp raw).entries.filter
          (fun e => (t.id ++ "_".data).isPrefixOf e.id)).foldl
        (fun s e => s + e.score.getD 0) 0 := by
  refine ⟨?_, subSum_eq_all_prefixed _ _⟩
  rw [parse_totalMismatches, parse_entries] at *
  set es := mkEntries cmp (ingest raw) with hes
  have hnd : (es.map (fun e => e.id)).Nodup := mkEntries_ids_nodup cmp _ (wf_ingest raw)
  rw [mkTotalMismatches]
  rw [filterMap_filter_key _ (fun e => e.id = t.id) _ ?hkey]
  case hkey =>
    intro a b hab
    cases hsa : a.score with
    | none =>
      rw [hsa] at hab
      dsimp only at hab
      cases hab
    | some qa =>
      rw [hsa] at hab
      dsimp only at hab
      by_cases hne : qa ≠ subSum es a.id
      · rw [if_pos hne] at hab
        cases hab
        rfl
      · rw [if_neg hne] at hab
        cases hab
  have hcomm : (es.filter (fun e => !e.id.contains '_' && e.score.isSome)).filter
      (fun e => e.id = t.id) =
      (es.filter (fun e => e.id = t.id)).filter
        (fun e => !e.id.contains '_' && e.score.isSome) := by
    rw [List.filter_filter, List.filter_filter]
    apply List.filter_congr
    intro e _
    rw [Bool.and_comm]
  rw [hcomm, filter_id_eq_singleton es t hnd ht,
    List.filter_cons_of_pos (by rw [hid, hq]; rfl), List.filter_nil]
  by_cases hne : q = subSum es t.id
  · rw [if_pos hne]
    simp [List.filterMap_cons, hq, hne]
  · rw [if_neg hne]
    simp [List.filterMap_cons, hq, hne]

/-- Witness for C4 on the spec's own example
`Q1_1_score: 3` / `Q1_score: 5`: the mismatch record for `Q1` carries
reported 5 and expected 3. -/
theorem total_mismatch_iff_witness :
    (parseRubricWith ordLe "Q1_1_score: 3\nQ1_score: 5".data).totalMismatches.filter
        (fun r => r.id = "Q1".data) =
      [⟨"Q1".data, 5, subSum (parseRubricWith ordLe "Q1_1_score: 3\nQ1_score: 5".data).entries
          "Q1".data⟩] := by
  have h := (total_mismatch_iff ordLe "Q1_1_score: 3\nQ1_score: 5".data
    { id := "Q1".data, score := some 5, verdict := none, justification := none,
      raw := [("Q1_score".data, "5".data)] } 5 (by decide) (by decide) rfl).1
  rw [if_neg ?hne] at h
  · exact h
  case hne =>
    have hent : (parseRubricWith ordLe "Q1_1_score: 3\nQ1_score: 5".data).entries =
        [{ id := "Q1".data, score := some 5, verdict := none, justification := none,
           raw := [("Q1_score".data, "5".data)] },
         { id := "Q1_1".data, score := some 3, verdict := none, justification := none,
           raw := [("Q1_1_score".data, "3".data)] }] := by decide
    rw [hent]
    simp [subSum]


/-! ## Claim C7: lemmas about `dedupSort` and sorted lists -/

theorem jsSetList_fold_mem (l : List Nat) :
    ∀ acc x, x ∈ l.foldl (fun acc a => if acc.contains a then acc else acc ++ [a]) acc ↔
      x ∈ acc ∨ x ∈ l := by
  induction l with
  | nil => intro acc x; simp
  | cons a rest ih =>
    intro acc x
    rw [List.foldl_cons]
    by_cases hc : acc.contains a = true
    · rw [if_pos hc, ih]
      constructor
      · rintro (h | h)
        · exact Or.inl h
        · exact Or.inr (List.mem_cons_of_mem a h)
      · rintro (h | h)
        · exact Or.inl h
        · rcases List.mem_cons.mp h with rfl | h
          · exact Or.inl (by simpa using hc)
          · exact Or.inr h
    · rw [if_neg hc, ih]
      simp only [List.mem_append, List.mem_singleton, List.mem_cons]
      tauto

theorem jsSetList_mem (l : List Nat) (x : Nat) : x ∈ jsSetList l ↔ x ∈ l := by
  rw [jsSetList, jsSetList_fold_mem]
  simp

theorem jsSetList_fold_nodup (l : List Nat) :
    ∀ acc : List Nat, acc.Nodup →
      (l.foldl (fun acc a => if acc.contains a then acc else acc ++ [a]) acc).Nodup := by
  induction l with
  | nil => intro acc h; exact h
  | cons a rest ih =>
    intro acc h
    rw [List.foldl_cons]
    by_cases hc : acc.contains a = true
    · rw [if_pos hc]; exact ih acc h
    · rw [if_neg hc]
      apply ih
      rw [List.nodup_append]
      refine ⟨h, List.nodup_singleton a, ?_⟩
      intro x hx hxa
      rw [List.mem_singleton] at hxa
      subst hxa
      exact hc (by simpa using hx)

theorem jsSetList_nodup (l : List Nat) : (jsSetList l).Nodup :=
  jsSetList_fold_nodup l [] List.nodup_nil

theorem insertLe_sorted_nat (a : Nat) (l : List Nat)
    (h : l.Pairwise (fun x y => x ≤ y)) :
    (insertLe (fun x y : Nat => x ≤ y) a l).Pairwise (fun x y => x ≤ y) := by
  induction l with
  | nil => simp [insertLe]
  | cons b bs ih =>
    rw [List.pairwise_cons] at h
    rw [insertLe]
    by_cases hab : a ≤ b
    · rw [if_pos (by simpa using hab)]
      rw [List.pairwise_cons]
      refine ⟨?_, List.pairwise_cons.mpr h⟩
      intro x hx
      rcases List.mem_cons.mp hx with rfl | hx
      · exact hab
      · exact le_trans hab (h.1 x hx)
    · rw [if_neg (by simpa using hab)]
      rw [List.pairwise_cons]
      refine ⟨?_, ih h.2⟩
      intro x hx
      have h1 := (insertLe_perm _ a bs).mem_iff.mp hx
      rcases List.mem_cons.mp h1 with rfl | h1
      · exact le_of_not_le hab
      · exact h.1 x h1

theorem sortLe_sorted_nat (l : List Nat) :
    (sortLe (fun x y : Nat => x ≤ y) l).Pairwise (fun x y => x ≤ y) := by
  induction l with
  | nil => simp [sortLe]
  | cons a rest ih =>
    rw [sortLe]
    exact insertLe_sorted_nat a _ ih

theorem dedupSort_mem (l : List Nat) (x : Nat) : x ∈ dedupSort l ↔ x ∈ l := by
  rw [dedupSort, mem_sortLe, jsSetList_mem]

theorem dedupSort_nodup (l : List Nat) : (dedupSort l).Nodup := by
  rw [dedupSort, (sortLe_perm _ _).nodup_iff]
  exact jsSetList_nodup l

theorem dedupSort_sorted (l : List Nat) :
    (dedupSort l).Pairwise (fun x y => x ≤ y) :=
  sortLe_sorted_nat (jsSetList l)

theorem sorted_head_min (mn : Nat) (rest : List Nat)
    (h : (mn :: rest).Pairwise (fun x y => x ≤ y)) :
    ∀ x ∈ mn :: rest, mn ≤ x := by
  intro x hx
  rcases List.mem_cons.mp hx with rfl | hx
  · exact le_refl x
  · exact (List.pairwise_cons.mp h).1 x hx

theorem sorted_getLastD_max (l : List Nat) (d : Nat)
    (h : l.Pairwise (fun x y => x ≤ y)) :
    ∀ x ∈ l, x ≤ l.getLastD d := by
  induction l generalizing d with
  | nil => intro x hx; cases hx
  | cons a rest ih =>
    intro x hx
    rw [List.pairwise_cons] at h
    cases rest with
    | nil =>
      rw [List.mem_singleton] at hx
      subst hx
      rfl
    | cons b bs =>
      rcases List.mem_cons.mp hx with rfl | hx
      · calc x ≤ b := h.1 b (List.mem_cons_self b bs)
          _ ≤ (b :: bs).getLastD d := ih d h.2 b (List.mem_cons_self b bs)
      · exact ih d h.2 x hx

theorem getLastD_mem (l : List Nat) (d : Nat) (h : l ≠ []) : l.getLastD d ∈ l := by
  induction l generalizing d with
  | nil => exact absurd rfl h
  | cons a rest ih =>
    cases rest with
    | nil => simp
    | cons b bs =>
      have : (a :: b :: bs).getLastD d = (b :: bs).getLastD d := rfl
      rw [this]
      exact List.mem_cons_of_mem a (ih d (by simp))

theorem strict_sorted_mem_ext (l1 l2 : List Nat)
    (h1 : l1.Pairwise (fun x y => x < y)) (h2 : l2.Pairwise (fun x y => x < y))
    (h : ∀ x, x ∈ l1 ↔ x ∈ l2) : l1 = l2 := by
  induction l1 generalizing l2 with
  | nil =>
    cases l2 with
    | nil => rfl
    | cons b t2 => exact absurd ((h b).mpr (List.mem_cons_self b t2)) (by simp)
  | cons a t1 ih =>
    cases l2 with
    | nil => exact absurd ((h a).mp (List.mem_cons_self a t1)) (by simp)
    | cons b t2 =>
      rw [List.pairwise_cons] at h1 h2
      have hab : a = b := by
        rcases List.mem_cons.mp ((h a).mp (List.mem_cons_self a t1)) with h' | h'
        · exact h'
        · rcases List.mem_cons.mp ((h b).mpr (List.mem_cons_self b t2)) with h'' | h''
          · exact h''.symm
          · exact absurd (lt_trans (h2.1 a h') (h1.1 b h'')) (lt_irrefl b)
      subst hab
      congr 1
      apply ih t2 h1.2 h2.2
      intro x
      constructor
      · intro hx
        have hax : a < x := h1.1 x hx
        rcases List.mem_cons.mp ((h x).mp (List.mem_cons_of_mem a hx)) with h' | h'
        · exact absurd (h' ▸ hax) (lt_irrefl a)
        · exact h'
      · intro hx
        have hax : a < x := h2.1 x hx
        rcases List.mem_cons.mp ((h x).mpr (List.mem_cons_of_mem a hx)) with h' | h'
        · exact absurd (h' ▸ hax) (lt_irrefl a)
        · exact h'


theorem collect_fold_lookup (es : List RubricEntry) :
    ∀ (gm : List (List Char × List Nat)) (g : List Char),
      lookupA (es.foldl
        (fun gm e =>
          match idGroupIdx e.id with
          | none => gm
          | some (g, i) => setA gm g ((lookupA gm g).getD [] ++ [i])) gm) g =
      if indicesOf es g = [] then lookupA gm g
      else some ((lookupA gm g).getD [] ++ indicesOf es g) := by
  induction es with
  | nil => intro gm g; simp [indicesOf]
  | cons e rest ih =>
    intro gm g
    rw [List.foldl_cons]
    cases hg : idGroupIdx e.id with
    | none =>
      have hind : indicesOf (e :: rest) g = indicesOf rest g := by
        rw [indicesOf, List.filterMap_cons_none (by simp [hg]), indicesOf]
      dsimp only
      rw [ih gm g, hind]
    | some p =>
      obtain ⟨g0, i⟩ := p
      dsimp only
      rw [ih _ g]
      by_cases hgg : g0 = g
      · subst hgg
        have hind : indicesOf (e :: rest) g0 = i :: indicesOf rest g0 := by
          rw [indicesOf, List.filterMap_cons_some (b := i) (by simp [hg]), indicesOf]
        rw [hind, lookupA_setA_self]
        by_cases hrest : indicesOf rest g0 = []
        · rw [if_pos hrest, hrest, if_neg (by simp)]
        · rw [if_neg hrest, if_neg (by simp)]
          simp
      · have hind : indicesOf (e :: rest) g = indicesOf rest g := by
          rw [indicesOf, List.filterMap_cons_none (by simp [hg, hgg]), indicesOf]
        rw [hind, lookupA_setA_ne _ _ _ _ (fun h => hgg h.symm)]

theorem collect_fold_keys_nodup (es : List RubricEntry) :
    ∀ gm : List (List Char × List Nat),
      (gm.map (fun p => p.1)).Nodup →
      ((es.foldl
        (fun gm e =>
          match idGroupIdx e.id with
          | none => gm
          | some (g, i) => setA gm g ((lookupA gm g).getD [] ++ [i])) gm).map
        (fun p => p.1)).Nodup := by
  induction es with
  | nil => intro gm h; exact h
  | cons e rest ih =>
    intro gm h
    rw [List.foldl_cons]
    cases hg : idGroupIdx e.id with
    | none =>
      dsimp only
      exact ih gm h
    | some p =>
      obtain ⟨g0, i⟩ := p
      dsimp only
      exact ih _ (nodup_keys_setA _ _ _ h)

theorem collectGroups_lookup (es : List RubricEntry) (g : List Char) :
    lookupA (collectGroups es) g =
      if indicesOf es g = [] then none else some (indicesOf es g) := by
  rw [collectGroups, collect_fold_lookup]
  rw [lookupA_nil]
  rfl

theorem collectGroups_keys_nodup (es : List RubricEntry) :
    ((collectGroups es).map (fun p => p.1)).Nodup := by
  rw [collectGroups]
  exact collect_fold_keys_nodup es [] (by simp)

theorem mem_collectGroups_iff (es : List RubricEntry) (g : List Char) (l : List Nat) :
    (g, l) ∈ collectGroups es ↔ lookupA (collectGroups es) g = some l :=
  ⟨lookupA_of_mem_nodup _ _ _ (collectGroups_keys_nodup es),
   mem_of_lookupA _ _ _⟩


theorem contains_iff_mem_nat (l : List Nat) (x : Nat) : l.contains x = true ↔ x ∈ l := by
  constructor
  · intro h; simpa using h
  · intro h; simpa using h

/-- C7: a record for a numbered-sequence group appears in
`skippedIndices` iff some integer strictly between the minimum and the
maximum distinct index present in that group is absent, and its
missing list is exactly the ascending list of the absent integers of
that contiguous range; gap-free groups produce no record. -/
theorem skipped_group_iff (cmp : List Char → List Char → Bool) (raw : List Char)
    (g : List Char) (ms : List Nat) :
    (⟨g, ms⟩ : SkipRecord) ∈ (parseRubricWith cmp raw).skippedIndices ↔
    ∃ mn mx : Nat,
      mn ∈ indicesOf (parseRubricWith cmp raw).entries g ∧
      mx ∈ indicesOf (parseRubricWith cmp raw).entries g ∧
      (∀ i ∈ indicesOf (parseRubricWith cmp raw).entries g, mn ≤ i ∧ i ≤ mx) ∧
      ms ≠ [] ∧ ms.Pairwise (fun x y => x < y) ∧
      (∀ j : Nat, j ∈ ms ↔
        (mn < j ∧ j < mx ∧ j ∉ indicesOf (parseRubricWith cmp raw).entries g)) := by
  rw [parse_skippedIndices, parse_entries]
  set es := mkEntries cmp (ingest raw) with hes
  rw [mkSkippedIndices]
  constructor
  · intro hmem
    rw [List.mem_filterMap] at hmem
    obtain ⟨⟨g0, idxs⟩, hin, hskip⟩ := hmem
    have hlk := (mem_collectGroups_iff es g0 idxs).mp hin
    rw [collectGroups_lookup] at hlk
    by_cases hind : indicesOf es g0 = []
    · rw [if_pos hind] at hlk; cases hlk
    · rw [if_neg hind] at hlk
      have hidxs : idxs = indicesOf es g0 := (Option.some.inj hlk).symm
      rw [skipOf.eq_def] at hskip
      cases hds : dedupSort idxs with
      | nil => rw [hds] at hskip; cases hskip
      | cons mn rest =>
        rw [hds] at hskip
        dsimp only at hskip
        by_cases hemp : ((List.range' mn ((mn :: rest).getLastD mn + 1 - mn)).filter
            (fun i => !(mn :: rest).contains i)).isEmpty = true
        · rw [if_pos hemp] at hskip; cases hskip
        · rw [if_neg hemp] at hskip
          have hinj := Option.some.inj hskip
          rw [SkipRecord.mk.injEq] at hinj
          obtain ⟨hg0, hms⟩ := hinj
          subst hg0
          have hsorted : (mn :: rest).Pairwise (fun x y => x ≤ y) := by
            rw [← hds]; exact dedupSort_sorted idxs
          have hmemiff : ∀ x, x ∈ mn :: rest ↔ x ∈ idxs := by
            intro x; rw [← hds]; exact dedupSort_mem idxs x
          have hmnmem : mn ∈ indicesOf es g0 := by
            rw [← hidxs]; exact (hmemiff mn).mp (List.mem_cons_self mn rest)
          have hmxmem : (mn :: rest).getLastD mn ∈ indicesOf es g0 := by
            rw [← hidxs]
            exact (hmemiff _).mp (getLastD_mem (mn :: rest) mn (by simp))
          have hboundall : ∀ i ∈ indicesOf es g0,
              mn ≤ i ∧ i ≤ (mn :: rest).getLastD mn := by
            intro i hi
            rw [← hidxs] at hi
            exact ⟨sorted_head_min mn rest hsorted i ((hmemiff i).mpr hi),
              sorted_getLastD_max (mn :: rest) mn hsorted i ((hmemiff i).mpr hi)⟩
          have hmnmx : mn ≤ (mn :: rest).getLastD mn := (hboundall _ hmxmem).1
          refine ⟨mn, (mn :: rest).getLastD mn, hmnmem, hmxmem, hboundall, ?_, ?_, ?_⟩
          · intro hcon
            rw [← hms] at hcon
            rw [hcon] at hemp
            exact hemp rfl
          · rw [← hms]
            exact List.Pairwise.filter _ (List.pairwise_lt_range' mn _)
          · intro j
            rw [← hms, List.mem_filter, List.mem_range'_1]
            constructor
            · rintro ⟨hr, hc⟩
              have hnm : j ∉ indicesOf es g0 := by
                rw [← hidxs]
                intro hj
                rw [Bool.not_eq_true', ← Bool.not_eq_true] at hc
                exact hc ((contains_iff_mem_nat _ j).mpr ((hmemiff j).mpr hj))
              have hjmn : j ≠ mn := fun h => hnm (h ▸ hmnmem)
              have hjmx : j ≠ (mn :: rest).getLastD mn := fun h => hnm (h ▸ hmxmem)
              exact ⟨by omega, by omega, hnm⟩
            · rintro ⟨h1, h2, h3⟩
              refine ⟨⟨by omega, by omega⟩, ?_⟩
              rw [Bool.not_eq_true', ← Bool.not_eq_true]
              intro hc
              exact h3 (by rw [← hidxs]; exact (hmemiff j).mp ((contains_iff_mem_nat _ j).mp hc))
  · rintro ⟨mn, mx, hmn, hmx, hbound, hne, hsrt, hchar⟩
    rw [List.mem_filterMap]
    have hindne : indicesOf es g ≠ [] := List.ne_nil_of_mem hmn
    refine ⟨(g, indicesOf es g), ?_, ?_⟩
    · exact mem_of_lookupA _ _ _ (by rw [collectGroups_lookup, if_neg hindne])
    · rw [skipOf.eq_def]
      cases hds : dedupSort (indicesOf es g) with
      | nil =>
        exfalso
        have hm := (dedupSort_mem (indicesOf es g) mn).mpr hmn
        rw [hds] at hm
        cases hm
      | cons mn' rest =>
        dsimp only
        have hsorted : (mn' :: rest).Pairwise (fun x y => x ≤ y) := by
          rw [← hds]; exact dedupSort_sorted _
        have hmemiff : ∀ x, x ∈ mn' :: rest ↔ x ∈ indicesOf es g := by
          intro x; rw [← hds]; exact dedupSort_mem _ x
        have hmn'mem : mn' ∈ indicesOf es g :=
          (hmemiff mn').mp (List.mem_cons_self mn' rest)
        have hmn' : mn' = mn :=
          le_antisymm (sorted_head_min mn' rest hsorted mn ((hmemiff mn).mpr hmn))
            (hbound mn' hmn'mem).1
      -- continued below
        have hmxmem : (mn' :: rest).getLastD mn' ∈ indicesOf es g :=
          (hmemiff _).mp (getLastD_mem (mn' :: rest) mn' (by simp))
        have hmx' : (mn' :: rest).getLastD mn' = mx :=
          le_antisymm (hbound _ hmxmem).2
            (sorted_getLastD_max (mn' :: rest) mn' hsorted mx ((hmemiff mx).mpr hmx))
        have hmnmx : mn ≤ mx := (hbound mn hmn).2
        subst hmn'
        rw [hmx']
        have hmiss_eq : (List.range' mn' (mx + 1 - mn')).filter
            (fun i => !(mn' :: rest).contains i) = ms := by
          apply strict_sorted_mem_ext _ _
            (List.Pairwise.filter _ (List.pairwise_lt_range' mn' _)) hsrt
          intro x
          rw [List.mem_filter, List.mem_range'_1, hchar x]
          constructor
          · rintro ⟨hr, hc⟩
            have hnm : x ∉ indicesOf es g := by
              intro hx
              rw [Bool.not_eq_true', ← Bool.not_eq_true] at hc
              exact hc ((contains_iff_mem_nat _ x).mpr ((hmemiff x).mpr hx))
            have hxmn : x ≠ mn' := fun h => hnm (h ▸ hmn'mem)
            have hxmx : x ≠ mx := fun h => hnm (h ▸ hmx' ▸ hmxmem)
            exact ⟨by omega, by omega, hnm⟩
          · rintro ⟨h1, h2, h3⟩
            refine ⟨⟨by omega, by omega⟩, ?_⟩
            rw [Bool.not_eq_true', ← Bool.not_eq_true]
            intro hc
            exact h3 ((hmemiff x).mp ((contains_iff_mem_nat _ x).mp hc))
        rw [hmiss_eq]
        have hie : ms.isEmpty = false := by
          cases ms with
          | nil => exact absurd rfl hne
          | cons a l => rfl
        rw [if_neg (by rw [hie]; exact Bool.false_ne_true)]

/-- Witness for C7 on the spec's example: ids `G_1`, `G_3` yield the
record `{group := "G_", missing := [2]}`. -/
theorem skipped_group_iff_witness :
    (⟨"G_".data, [2]⟩ : SkipRecord) ∈
      (parseRubricWith ordLe "G_1_score: 1\nG_3_score: 2".data).skippedIndices :=
  (skipped_group_iff ordLe "G_1_score: 1\nG_3_score: 2".data "G_".data [2]).mpr
    ⟨1, 3, by decide, by decide, by decide, by decide, by decide, by
      intro j
      rw [show indicesOf
          (parseRubricWith ordLe "G_1_score: 1\nG_3_score: 2".data).entries "G_".data =
          [1, 3] from by decide]
      simp
      omega⟩


/-! ## Claim C6: lemmas about the per-pair fold -/

theorem applyField_raw (r : RubricEntry) (f : FieldKey) (v : List Char) :
    (applyField r f v).raw = r.raw := by
  cases f with
  | score =>
    rw [applyField]
    cases jsNum v <;> rfl
  | verdict => rfl
  | justification => rfl
  | other => rfl

theorem applyField_score_ne (r : RubricEntry) (f : FieldKey) (v : List Char)
    (h : f ≠ FieldKey.score) : (applyField r f v).score = r.score := by
  cases f with
  | score => exact absurd rfl h
  | verdict => rfl
  | justification => rfl
  | other => rfl

theorem applyField_verdict_ne (r : RubricEntry) (f : FieldKey) (v : List Char)
    (h : f ≠ FieldKey.verdict) : (applyField r f v).verdict = r.verdict := by
  cases f with
  | score =>
    rw [applyField]
    cases jsNum v <;> rfl
  | verdict => exact absurd rfl h
  | justification => rfl
  | other => rfl

theorem applyField_justification_ne (r : RubricEntry) (f : FieldKey) (v : List Char)
    (h : f ≠ FieldKey.justification) : (applyField r f v).justification = r.justification := by
  cases f with
  | score =>
    rw [applyField]
    cases jsNum v <;> rfl
  | verdict => rfl
  | justification => exact absurd rfl h
  | other => rfl

theorem lastVal_concat (occ : List (List Char × List Char)) (p : List Char × List Char) :
    lastVal (occ ++ [p]) = some p.2 := by
  rw [lastVal, List.getLast?_concat]
  rfl

theorem lastScore_concat (occ : List (List Char × List Char)) (p : List Char × List Char) :
    lastScore (occ ++ [p]) =
      match jsNum (stripQuotes p.2) with
      | some q => some q
      | none => lastScore occ := by
  rw [lastScore, List.foldl_append, List.foldl_cons, List.foldl_nil, lastScore]

theorem foldl_lineStep_filterMap (lines : List (List Char)) :
    ∀ st : ParseState,
      lines.foldl lineStep st = (lines.filterMap linePair).foldl pairStep st := by
  induction lines with
  | nil => intro st; rfl
  | cons l ls ih =>
    intro st
    rw [List.foldl_cons, lineStep]
    cases hl : linePair l with
    | none => rw [List.filterMap_cons_none hl]; exact ih st
    | some p => rw [List.filterMap_cons_some hl, List.foldl_cons]; exact ih _

theorem ingest_eq_pairs_fold (raw : List Char) :
    ingest raw = (acceptedPairs raw).foldl pairStep ParseState.init := by
  rw [ingest, acceptedPairs, foldl_lineStep_filterMap]


theorem pairStep_rawValues (st : ParseState) (p : List Char × List Char) :
    (pairStep st p).rawValues = setA st.rawValues p.1 p.2 := rfl

theorem pairStep_duplicateKeys (st : ParseState) (p : List Char × List Char) :
    (pairStep st p).duplicateKeys =
      if st.rawValues.any (fun q => q.1 = p.1) then st.duplicateKeys ++ [p.1]
      else st.duplicateKeys := rfl

theorem pairStep_map (st : ParseState) (p : List Char × List Char) :
    (pairStep st p).map =
      setA st.map (baseId p.1)
        { applyField ((lookupA st.map (baseId p.1)).getD { id := baseId p.1 })
            (detectField p.1) (stripQuotes p.2) with
          raw := setA (applyField ((lookupA st.map (baseId p.1)).getD { id := baseId p.1 })
              (detectField p.1) (stripQuotes p.2)).raw p.1 (stripQuotes p.2) } := rfl

theorem count_singleton_ne (a b : List Char) (h : b ≠ a) : ([b].count a) = 0 := by
  have hab : ¬(a = b) := fun hc => h hc.symm
  simp [List.count_cons, hab]

theorem bind_some_eq {α β : Type} (a : α) (f : α → Option β) : (some a).bind f = f a := rfl

theorem pairStep_invariant (k : List Char) (p : List Char × List Char)
    (hOnly : p.1 ≠ k → ¬(baseId p.1 = baseId k ∧ detectField p.1 = detectField k))
    (st : ParseState) (occ : List (List Char × List Char))
    (I1 : lookupA st.rawValues k = lastVal occ)
    (I2 : st.duplicateKeys.count k = occ.length - 1)
    (I3 : (lookupA st.map (baseId k)).bind (fun r => lookupA r.raw k) =
      occ.getLast?.map (fun q => stripQuotes q.2))
    (I4 : lookupA st.map (baseId k) = none → occ = [])
    (I5 : detectField k = FieldKey.score →
      ∀ r, lookupA st.map (baseId k) = some r → r.score = lastScore occ)
    (I6 : detectField k = FieldKey.verdict →
      ∀ r, lookupA st.map (baseId k) = some r →
        r.verdict = occ.getLast?.map (fun q => stripQuotes q.2))
    (I7 : detectField k = FieldKey.justification →
      ∀ r, lookupA st.map (baseId k) = some r →
        r.justification = occ.getLast?.map (fun q => stripQuotes q.2)) :
    lookupA (pairStep st p).rawValues k =
        lastVal (occ ++ if p.1 = k then [p] else []) ∧
    (pairStep st p).duplicateKeys.count k =
        (occ ++ if p.1 = k then [p] else []).length - 1 ∧
    (lookupA (pairStep st p).map (baseId k)).bind (fun r => lookupA r.raw k) =
        (occ ++ if p.1 = k then [p] else []).getLast?.map (fun q => stripQuotes q.2) ∧
    (lookupA (pairStep st p).map (baseId k) = none →
        (occ ++ if p.1 = k then [p] else []) = []) ∧
    (detectField k = FieldKey.score →
      ∀ r, lookupA (pairStep st p).map (baseId k) = some r →
        r.score = lastScore (occ ++ if p.1 = k then [p] else [])) ∧
    (detectField k = FieldKey.verdict →
      ∀ r, lookupA (pairStep st p).map (baseId k) = some r →
        r.verdict = (occ ++ if p.1 = k then [p] else []).getLast?.map
          (fun q => stripQuotes q.2)) ∧
    (detectField k = FieldKey.justification →
      ∀ r, lookupA (pairStep st p).map (baseId k) = some r →
        r.justification = (occ ++ if p.1 = k then [p] else []).getLast?.map
          (fun q => stripQuotes q.2)) := by
  by_cases hk : p.1 = k
  · rw [if_pos hk]
    have hlk : lookupA (pairStep st p).map (baseId k) =
        some { applyField ((lookupA st.map (baseId k)).getD { id := baseId k })
            (detectField k) (stripQuotes p.2) with
          raw := setA (applyField ((lookupA st.map (baseId k)).getD { id := baseId k })
              (detectField k) (stripQuotes p.2)).raw k (stripQuotes p.2) } := by
      rw [pairStep_map, hk, lookupA_setA_self]
    refine ⟨?_, ?_, ?_, ?_, ?_, ?_, ?_⟩
    · rw [pairStep_rawValues, hk, lookupA_setA_self, lastVal_concat]
    · rw [pairStep_duplicateKeys, hk, any_key_eq_lookupA, I1, lastVal]
      cases occ with
      | nil =>
        simp at I2 ⊢
        exact I2
      | cons a t =>
        have hs : (((a :: t).getLast?).map (fun q => q.2)).isSome = true := by
          cases hgl : (a :: t).getLast? with
          | none => exact absurd hgl (by simp)
          | some x => rfl
        rw [if_pos hs, List.count_append, I2]
        have h1 : ([k].count k) = 1 := by simp
        rw [h1]
        simp [List.length_append]
    · rw [hlk, bind_some_eq]
      dsimp only
      rw [lookupA_setA_self, List.getLast?_concat]
      rfl
    · intro hcon
      rw [hlk] at hcon
      cases hcon
    · intro hrole r hr
      rw [hlk] at hr
      cases Option.some.inj hr
      dsimp only
      rw [hrole, applyField]
      cases hj : jsNum (stripQuotes p.2) with
      | some q =>
        dsimp only
        rw [lastScore_concat, hj]
      | none =>
        dsimp only
        rw [lastScore_concat, hj]
        cases hl : lookupA st.map (baseId k) with
        | some r0 =>
          rw [Option.getD_some]
          exact I5 hrole r0 hl
        | none =>
          rw [Option.getD_none, I4 hl]
          rfl
    · intro hrole r hr
      rw [hlk] at hr
      cases Option.some.inj hr
      dsimp only
      rw [hrole, applyField, List.getLast?_concat]
      rfl
    · intro hrole r hr
      rw [hlk] at hr
      cases Option.some.inj hr
      dsimp only
      rw [hrole, applyField, List.getLast?_concat]
      rfl
  · rw [if_neg hk, List.append_nil]
    have hkne : ¬(k = p.1) := fun h => hk h.symm
    have c1 : lookupA (pairStep st p).rawValues k = lastVal occ := by
      rw [pairStep_rawValues, lookupA_setA_ne _ _ _ _ hkne]
      exact I1
    have c2 : (pairStep st p).duplicateKeys.count k = occ.length - 1 := by
      rw [pairStep_duplicateKeys]
      by_cases hany : st.rawValues.any (fun q => q.1 = p.1) = true
      · rw [if_pos hany, List.count_append, count_singleton_ne k p.1 hk, Nat.add_zero]
        exact I2
      · rw [if_neg hany]
        exact I2
    by_cases hb : baseId p.1 = baseId k
    · have hne_role : detectField p.1 ≠ detectField k := fun hc => hOnly hk ⟨hb, hc⟩
      have hlk : lookupA (pairStep st p).map (baseId k) =
          some { applyField ((lookupA st.map (baseId k)).getD { id := baseId k })
              (detectField p.1) (stripQuotes p.2) with
            raw := setA (applyField ((lookupA st.map (baseId k)).getD { id := baseId k })
                (detectField p.1) (stripQuotes p.2)).raw p.1 (stripQuotes p.2) } := by
        rw [pairStep_map, hb, lookupA_setA_self]
      refine ⟨c1, c2, ?_, ?_, ?_, ?_, ?_⟩
      · rw [hlk, bind_some_eq]
        dsimp only
        rw [lookupA_setA_ne _ _ _ _ hkne, applyField_raw]
        cases hl : lookupA st.map (baseId k) with
        | some r0 =>
          rw [hl, bind_some_eq] at I3
          rw [Option.getD_some]
          exact I3
        | none =>
          rw [Option.getD_none, I4 hl]
          rfl
      · intro hcon
        rw [hlk] at hcon
        cases hcon
      · intro hrole r hr
        rw [hlk] at hr
        cases Option.some.inj hr
        dsimp only
        rw [applyField_score_ne _ _ _ (hrole ▸ hne_role)]
        cases hl : lookupA st.map (baseId k) with
        | some r0 =>
          rw [Option.getD_some]
          exact I5 hrole r0 hl
        | none =>
          rw [Option.getD_none, I4 hl]
          rfl
      · intro hrole r hr
        rw [hlk] at hr
        cases Option.some.inj hr
        dsimp only
        rw [applyField_verdict_ne _ _ _ (hrole ▸ hne_role)]
        cases hl : lookupA st.map (baseId k) with
        | some r0 =>
          rw [Option.getD_some]
          exact I6 hrole r0 hl
        | none =>
          rw [Option.getD_none, I4 hl]
          rfl
      · intro hrole r hr
        rw [hlk] at hr
        cases Option.some.inj hr
        dsimp only
        rw [applyField_justification_ne _ _ _ (hrole ▸ hne_role)]
        cases hl : lookupA st.map (baseId k) with
        | some r0 =>
          rw [Option.getD_some]
          exact I7 hrole r0 hl
        | none =>
          rw [Option.getD_none, I4 hl]
          rfl
    · have hset : lookupA (pairStep st p).map (baseId k) = lookupA st.map (baseId k) := by
        rw [pairStep_map, lookupA_setA_ne _ _ _ _ (fun h => hb h.symm)]
      refine ⟨c1, c2, ?_, ?_, ?_, ?_, ?_⟩
      · rw [hset]
        exact I3
      · intro h
        rw [hset] at h
        exact I4 h
      · intro hrole r hr
        rw [hset] at hr
        exact I5 hrole r hr
      · intro hrole r hr
        rw [hset] at hr
        exact I6 hrole r hr
      · intro hrole r hr
        rw [hset] at hr
        exact I7 hrole r hr


theorem pairs_fold_invariant (k : List Char) :
    ∀ (ps : List (List Char × List Char)),
      (∀ p ∈ ps, p.1 ≠ k → ¬(baseId p.1 = baseId k ∧ detectField p.1 = detectField k)) →
      ∀ (st : ParseState) (occ : List (List Char × List Char)),
      lookupA st.rawValues k = lastVal occ →
      st.duplicateKeys.count k = occ.length - 1 →
      (lookupA st.map (baseId k)).bind (fun r => lookupA r.raw k) =
        occ.getLast?.map (fun q => stripQuotes q.2) →
      (lookupA st.map (baseId k) = none → occ = []) →
      (detectField k = FieldKey.score →
        ∀ r, lookupA st.map (baseId k) = some r → r.score = lastScore occ) →
      (detectField k = FieldKey.verdict →
        ∀ r, lookupA st.map (baseId k) = some r →
          r.verdict = occ.getLast?.map (fun q => stripQuotes q.2)) →
      (detectField k = FieldKey.justification →
        ∀ r, lookupA st.map (baseId k) = some r →
          r.justification = occ.getLast?.map (fun q => stripQuotes q.2)) →
      (lookupA (ps.foldl pairStep st).rawValues k =
          lastVal (occ ++ ps.filter (fun q => q.1 = k)) ∧
        (ps.foldl pairStep st).duplicateKeys.count k =
          (occ ++ ps.filter (fun q => q.1 = k)).length - 1 ∧
        (lookupA (ps.foldl pairStep st).map (baseId k)).bind (fun r => lookupA r.raw k) =
          (occ ++ ps.filter (fun q => q.1 = k)).getLast?.map (fun q => stripQuotes q.2) ∧
        (lookupA (ps.foldl pairStep st).map (baseId k) = none →
          (occ ++ ps.filter (fun q => q.1 = k)) = []) ∧
        (detectField k = FieldKey.score →
          ∀ r, lookupA (ps.foldl pairStep st).map (baseId k) = some r →
            r.score = lastScore (occ ++ ps.filter (fun q => q.1 = k))) ∧
        (detectField k = FieldKey.verdict →
          ∀ r, lookupA (ps.foldl pairStep st).map (baseId k) = some r →
            r.verdict = (occ ++ ps.filter (fun q => q.1 = k)).getLast?.map
              (fun q => stripQuotes q.2)) ∧
        (detectField k = FieldKey.justification →
          ∀ r, lookupA (ps.foldl pairStep st).map (baseId k) = some r →
            r.justification = (occ ++ ps.filter (fun q => q.1 = k)).getLast?.map
              (fun q => stripQuotes q.2))) := by
  intro ps
  induction ps with
  | nil =>
    intro _ st occ hI1 hI2 hI3 hI4 hI5 hI6 hI7
    rw [List.foldl_nil, List.filter_nil, List.append_nil]
    exact ⟨hI1, hI2, hI3, hI4, hI5, hI6, hI7⟩
  | cons p ps ih =>
    intro hOnly st occ hI1 hI2 hI3 hI4 hI5 hI6 hI7
    obtain ⟨J1, J2, J3, J4, J5, J6, J7⟩ :=
      pairStep_invariant k p (hOnly p (List.mem_cons_self p ps)) st occ
        hI1 hI2 hI3 hI4 hI5 hI6 hI7
    have ihh := ih (fun q hq => hOnly q (List.mem_cons_of_mem p hq))
      (pairStep st p) (occ ++ if p.1 = k then [p] else []) J1 J2 J3 J4 J5 J6 J7
    have hocc : (occ ++ if p.1 = k then [p] else []) ++ ps.filter (fun q => q.1 = k) =
        occ ++ (p :: ps).filter (fun q => q.1 = k) := by
      rw [List.filter_cons]
      by_cases hk : p.1 = k
      · simp [hk, List.append_assoc]
      · simp [hk]
    rw [hocc] at ihh
    rw [List.foldl_cons]
    exact ihh

/-- C6 counterexample: the claim says the typed attribute reflects only
the last occurrence of a repeated key.  Two failures: (a) a non-numeric
final `A_score` leaves the earlier numeric score in place (score stays
5 while the raw map holds `x`); (b) a different key deriving the same
(id, role) — here the bare key `score` and `score_score`, both
(id `score`, role score) — can overwrite the attribute afterwards, so
the attribute (2) reflects neither the first key's last occurrence
(3). -/
theorem duplicate_key_last_write_cex :
    (parseRubricWith ordLe "A_score: 5\nA_score: x".data).entries =
      [{ id := "A".data, score := some 5, verdict := none, justification := none,
         raw := [("A_score".data, "x".data)] }] ∧
    (parseRubricWith ordLe "A_score: 5\nA_score: x".data).duplicateKeys =
      ["A_score".data] ∧
    jsNum (stripQuotes "x".data) = none ∧
    (parseRubricWith ordLe "score: 1\nscore: 3\nscore_score: 2".data).entries =
      [{ id := "score".data, score := some 2, verdict := none, justification := none,
         raw := [("score".data, "3".data), ("score_score".data, "2".data)] }] := by
  refine ⟨by decide, by decide, by decide, by decide⟩

/-- C6 amended: for a key occurring on n ≥ 2 accepted lines (with no
other key deriving the same (id, role) pair), `duplicateKeys` contains
the key exactly n − 1 times; the entry's raw-map value for the key is
the (quote-stripped) value of the last occurrence; the verdict and
justification attributes likewise reflect the last occurrence; the
score attribute reflects the last occurrence whose value parses as a
number, a trailing non-numeric occurrence leaving the earlier score in
place. -/
theorem duplicate_key_last_write (cmp : List Char → List Char → Bool)
    (raw : List Char) (k : List Char) (n : Nat)
    (hOnly : ∀ p ∈ acceptedPairs raw, p.1 ≠ k →
      ¬(baseId p.1 = baseId k ∧ detectField p.1 = detectField k))
    (hn : ((acceptedPairs raw).filter (fun q => q.1 = k)).length = n)
    (h2 : 2 ≤ n) :
    (parseRubricWith cmp raw).duplicateKeys.count k = n - 1 ∧
    ∃ e ∈ (parseRubricWith cmp raw).entries,
      e.id = baseId k ∧
      lookupA e.raw k = ((acceptedPairs raw).filter (fun q => q.1 = k)).getLast?.map
        (fun q => stripQuotes q.2) ∧
      (detectField k = FieldKey.score →
        e.score = lastScore ((acceptedPairs raw).filter (fun q => q.1 = k))) ∧
      (detectField k = FieldKey.verdict →
        e.verdict = ((acceptedPairs raw).filter (fun q => q.1 = k)).getLast?.map
          (fun q => stripQuotes q.2)) ∧
      (detectField k = FieldKey.justification →
        e.justification = ((acceptedPairs raw).filter (fun q => q.1 = k)).getLast?.map
          (fun q => stripQuotes q.2)) := by
  obtain ⟨J1, J2, J3, J4, J5, J6, J7⟩ :=
    pairs_fold_invariant k (acceptedPairs raw) hOnly ParseState.init []
      rfl rfl rfl (fun _ => rfl)
      (fun _ r hr => Option.noConfusion hr)
      (fun _ r hr => Option.noConfusion hr)
      (fun _ r hr => Option.noConfusion hr)
  rw [List.nil_append] at J1 J2 J3 J4 J5 J6 J7
  have hing : ingest raw = (acceptedPairs raw).foldl pairStep ParseState.init :=
    ingest_eq_pairs_fold raw
  constructor
  · rw [parse_duplicateKeys, hing, J2, hn]
  · have hne : (acceptedPairs raw).filter (fun q => q.1 = k) ≠ [] := by
      intro hcon
      rw [hcon] at hn
      simp at hn
      omega
    cases hl : lookupA ((acceptedPairs raw).foldl pairStep ParseState.init).map (baseId k) with
    | none => exact absurd (J4 hl) hne
    | some r =>
      refine ⟨r, ?_, ?_, ?_, ?_, ?_, ?_⟩
      · rw [parse_entries, mkEntries, mem_sortLe, hing]
        exact List.mem_map.mpr ⟨(baseId k, r), mem_of_lookupA _ _ _ hl, rfl⟩
      · have hwf := wf_ingest raw
        rw [hing] at hwf
        exact hwf.2 _ (mem_of_lookupA _ _ _ hl)
      · rw [hl, bind_some_eq] at J3
        exact J3
      · intro hrole
        exact J5 hrole r hl
      · intro hrole
        exact J6 hrole r hl
      · intro hrole
        exact J7 hrole r hl

/-- Witness for C6's amended claim: `A_verdict` repeated three times
with values `x`, `y`, `z`. -/
theorem duplicate_key_last_write_witness :
    (parseRubricWith ordLe
        "A_verdict: x\nA_verdict: y\nA_verdict: z".data).duplicateKeys.count
      "A_verdict".data = 3 - 1 ∧
    ∃ e ∈ (parseRubricWith ordLe
        "A_verdict: x\nA_verdict: y\nA_verdict: z".data).entries,
      e.id = baseId "A_verdict".data ∧
      lookupA e.raw "A_verdict".data =
        ((acceptedPairs "A_verdict: x\nA_verdict: y\nA_verdict: z".data).filter
            (fun q => q.1 = "A_verdict".data)).getLast?.map
          (fun q => stripQuotes q.2) ∧
      (detectField "A_verdict".data = FieldKey.score →
        e.score = lastScore ((acceptedPairs
            "A_verdict: x\nA_verdict: y\nA_verdict: z".data).filter
          (fun q => q.1 = "A_verdict".data))) ∧
      (detectField "A_verdict".data = FieldKey.verdict →
        e.verdict = ((acceptedPairs
            "A_verdict: x\nA_verdict: y\nA_verdict: z".data).filter
            (fun q => q.1 = "A_verdict".data)).getLast?.map
          (fun q => stripQuotes q.2)) ∧
      (detectField "A_verdict".data = FieldKey.justification →
        e.justification = ((acceptedPairs
            "A_verdict: x\nA_verdict: y\nA_verdict: z".data).filter
            (fun q => q.1 = "A_verdict".data)).getLast?.map
          (fun q => stripQuotes q.2)) :=
  duplicate_key_last_write ordLe
    "A_verdict: x\nA_verdict: y\nA_verdict: z".data "A_verdict".data 3
    (by decide) (by decide) (by decide)

end Rubric
